import Mathlib

/-!
# Verification of `vanswap_ofx.py`

A shallow embedding of the OFX name/memo repair tool `vanswap_ofx.py`.

The tool's core is two Python regular expressions:

* `RE_OFX = re.compile(r'(?is)([^<]*<OFX>)(.*?)(</OFX>.*)')`, used with
  `re.match` by `OFXRepairer.split_input` to partition the document into
  `(prefix, payload, suffix)`;
* `RE_STMTTRN` (verbose, case-insensitive, not dot-all), used with `re.sub`
  by `OFXRepairer.repair` to swap the `<NAME>` and `<MEMO>` values of each
  transaction record while keeping a trailing `Confirmation #<digits>`
  annotation in the memo.

Python's `re` is a backtracking engine: alternatives are tried in a fixed
priority order (greedy `*` longest-first, lazy `*?` shortest-first), and the
match returned is the first one found in that order.  We embed each piece of
the two patterns as a function returning the list of its candidate
`(consumed, rest)` splits **in exactly that priority order**, compose the
pieces with `List.flatMap` (so that later pieces backtrack before earlier
ones, as the engine does), and take the head of the final candidate list.
Strings are `List Char`; Python 2 `str` patterns use ASCII case folding for
`(?i)`, ASCII `\s = [ \t\n\r\f\v]` and `\d = [0-9]`.
-/

namespace Vanswap

/-- ASCII lower-casing of one character, as Python 2 `re.IGNORECASE` folds
pattern and text characters of a `str`. -/
def lowerCh (c : Char) : Char :=
  if 'A' ≤ c ∧ c ≤ 'Z' then Char.ofNat (c.toNat + 32) else c

/-- Python 2 `\s` character class on `str`: space, tab, newline, carriage
return, form feed, vertical tab. -/
def isWS (c : Char) : Bool :=
  c = ' ' ∨ c = '\t' ∨ c = '\n' ∨ c = '\r' ∨ c = '\x0b' ∨ c = '\x0c'

/-- Python 2 `\d` character class on `str`: ASCII digits. -/
def isDigitCh (c : Char) : Bool := '0' ≤ c ∧ c ≤ '9'

/-- Case-insensitive literal match: match the pattern `p` character by
character (ASCII case folding) against the front of `s`; return the consumed
text (the original characters of `s`) and the remainder. -/
def litCI : List Char → List Char → Option (List Char × List Char)
  | [], s => some ([], s)
  | _ :: _, [] => none
  | p :: ps, c :: cs =>
    if lowerCh c = lowerCh p then
      (litCI ps cs).map (fun u => (c :: u.1, u.2))
    else none

/-- `ciPrefix p s`: the case-insensitive literal `p` matches at the front of
`s` (Boolean version of `litCI` succeeding). -/
def ciPrefix : List Char → List Char → Bool
  | [], _ => true
  | _ :: _, [] => false
  | p :: ps, c :: cs => lowerCh c = lowerCh p && ciPrefix ps cs

/-- `ciSubstr p s`: the case-insensitive literal `p` matches at some position
of `s`. -/
def ciSubstr (p : List Char) : List Char → Bool
  | [] => ciPrefix p []
  | c :: cs => ciPrefix p (c :: cs) || ciSubstr p cs

/-- One-character class matcher (`\s`, `\d`, a literal character…): at most
one candidate. -/
def classOne (q : Char → Bool) : List Char → List (List Char × List Char)
  | [] => []
  | c :: cs => if q c then [([c], cs)] else []

/-- Greedy star over a character class (`\s*`, `\d*`, `.*`): candidate
`(consumed, rest)` splits, longest first, as a backtracking engine tries
them. -/
def starGreedy (q : Char → Bool) : List Char → List (List Char × List Char)
  | [] => [([], [])]
  | c :: cs =>
    if q c then
      ((starGreedy q cs).map (fun u => (c :: u.1, u.2))) ++ [([], c :: cs)]
    else [([], c :: cs)]

/-- Lazy star over a character class (`.*?`): candidate splits, shortest
first. -/
def starLazy (q : Char → Bool) : List Char → List (List Char × List Char)
  | [] => [([], [])]
  | c :: cs =>
    ([], c :: cs) ::
      (if q c then (starLazy q cs).map (fun u => (c :: u.1, u.2)) else [])

/-- Greedy plus over a character class (`\d+`): like `starGreedy` but the
consumed part must be nonempty. -/
def plusGreedy (q : Char → Bool) (s : List Char) :
    List (List Char × List Char) :=
  (starGreedy q s).filter (fun u => !u.1.isEmpty)

/-- All splits of `s` into `(consumed, rest)` where `consumed` ends just
after a newline, in ascending order of length.  Together with the empty
split these are exactly the candidates of the lazy group `(.*\n)*?` (each
iteration `.*\n` deterministically consumes one whole line, because `.`
cannot match a newline). -/
def lineSplits : List Char → List (List Char × List Char)
  | [] => []
  | c :: cs =>
    if c = '\n' then
      (['\n'], cs) :: (lineSplits cs).map (fun u => ('\n' :: u.1, u.2))
    else (lineSplits cs).map (fun u => (c :: u.1, u.2))

/-- Candidates of `(.*\n)*?`: zero lines first (lazy), then one, two, …
whole lines. -/
def lazyLines (s : List Char) : List (List Char × List Char) :=
  ([], s) :: lineSplits s

/-! ## Document partitioner: `RE_OFX` and `OFXRepairer.split_input`

`RE_OFX = re.compile(r'(?is)([^<]*<OFX>)(.*?)(</OFX>.*)')`, applied with
`re.match` (anchored at the start).  `[^<]*` is greedy over non-`<`
characters; since `<OFX>` begins with `<`, the only position where the
literal can possibly match is the first `<` of the input, so the group is
deterministic.  `(.*?)` is lazy with dot-all, so `</OFX>` matches at its
first (case-insensitive) occurrence after the opening marker; the final
`.*` (dot-all, greedy) extends group 3 to the end of the input.  When the
match succeeds `m.lastindex == 3` always holds, and the three groups are
returned; otherwise `(None, None, None)`. -/

/-- First case-insensitive occurrence of literal `p` in `s`: split `s` into
the part before the occurrence and the part from the occurrence on. -/
def splitAtFirstCI (p : List Char) : List Char → Option (List Char × List Char)
  | [] => if ciPrefix p [] then some ([], []) else none
  | c :: cs =>
    if ciPrefix p (c :: cs) then some ([], c :: cs)
    else (splitAtFirstCI p cs).map (fun u => (c :: u.1, u.2))

def ofxOpen : List Char := '<' :: 'O' :: 'F' :: 'X' :: '>' :: []

def ofxClose : List Char := '<' :: '/' :: 'O' :: 'F' :: 'X' :: '>' :: []

/-- `OFXRepairer.split_input`: split the document into
`(prefix-through-<OFX>, payload, </OFX>-and-after)`, or `none` when
`RE_OFX` does not match. -/
def split_input (s : List Char) : Option (List Char × List Char × List Char) :=
  match litCI ofxOpen (s.dropWhile (· ≠ '<')) with
  | none => none
  | some (o, r2) =>
    match splitAtFirstCI ofxClose r2 with
    | none => none
    | some (mid, post) => some (s.takeWhile (· ≠ '<') ++ o, mid, post)

/-! ## Record scanner: `RE_STMTTRN` and `OFXRepairer.repair`

```
RE_STMTTRN = re.compile(r'''(?ix)
            (?P<pre><STMTTRN>\s*\n(.*\n)*?)
            # Require both <NAME> and <MEMO> if we are to repair
            (?P<name_tag>\s*<NAME>)(?P<name_line>.*?)\n
            (?P<memo_tag>\s*<MEMO>)(?P<memo_line>.*?)
                  (?P<conf_field>(\s*Confirmation\s\#\d+\s*)?)\n
            (?P<post>(.*?\n)*?\s*</STMTTRN>)''')
```

Flags are `i` (ASCII case folding) and `x` (verbose); dot-all is *not* set,
so `.` never matches `\n`.  Each piece below is embedded as a candidate
list in the engine's priority order; `List.flatMap` nesting makes the later
(inner) pieces backtrack first, exactly as the engine does.  Inside one
iteration of `(.*\n)` the greedy `.*` cannot cross the newline, so each
iteration deterministically consumes one whole line; the lazy repetitions
`(.*\n)*?` and `(.*?\n)*?` therefore both enumerate 0, 1, 2, … whole lines
(`lazyLines`).  `(?P<name_line>.*?)\n` is also deterministic — the lazy
star grows until the line's newline and can grow no further — but we embed
it as the lazy enumeration it is. -/

def litSTMTTRN : List Char :=
  '<' :: 'S' :: 'T' :: 'M' :: 'T' :: 'T' :: 'R' :: 'N' :: '>' :: []

def litSTMTTRNclose : List Char :=
  '<' :: '/' :: 'S' :: 'T' :: 'M' :: 'T' :: 'T' :: 'R' :: 'N' :: '>' :: []

def litNAME : List Char := '<' :: 'N' :: 'A' :: 'M' :: 'E' :: '>' :: []

def litMEMO : List Char := '<' :: 'M' :: 'E' :: 'M' :: 'O' :: '>' :: []

def litConfirmation : List Char :=
  'C' :: 'o' :: 'n' :: 'f' :: 'i' :: 'r' :: 'm' :: 'a' :: 't' :: 'i' :: 'o' :: 'n' :: []

/-- Candidates of the group body `\s*Confirmation\s\#\d+\s*`, in engine
priority order. -/
def confCands (s : List Char) : List (List Char × List Char) :=
  (starGreedy isWS s).flatMap fun u1 =>
  (litCI litConfirmation u1.2).toList.flatMap fun u2 =>
  (classOne isWS u2.2).flatMap fun u3 =>
  (classOne (· = '#') u3.2).flatMap fun u4 =>
  (plusGreedy isDigitCh u4.2).flatMap fun u5 =>
  (starGreedy isWS u5.2).map fun u6 =>
  (u1.1 ++ u2.1 ++ u3.1 ++ u4.1 ++ u5.1 ++ u6.1, u6.2)

/-- Candidates of `(?P<conf_field>(\s*Confirmation\s\#\d+\s*)?)`: a greedy
option tries the group body first, then the empty match. -/
def confOpt (s : List Char) : List (List Char × List Char) :=
  confCands s ++ [([], s)]

/-- The named groups of one `RE_STMTTRN` match (the unnamed line groups are
never used by `repair`). -/
structure Groups where
  pre : List Char
  name_tag : List Char
  name_line : List Char
  memo_tag : List Char
  memo_line : List Char
  conf_field : List Char
  post : List Char
deriving Repr, DecidableEq

/-- All candidate matches of `RE_STMTTRN` anchored at the start of `s`, in
the engine's backtracking priority order, each with the unconsumed rest.
The head of this list is the match Python returns (if any). -/
def stmttrnCands (s : List Char) : List (Groups × List Char) :=
  (litCI litSTMTTRN s).toList.flatMap fun a =>
  (starGreedy isWS a.2).flatMap fun b =>
  (classOne (· = '\n') b.2).flatMap fun c =>
  (lazyLines c.2).flatMap fun d =>
  (starGreedy isWS d.2).flatMap fun e =>
  (litCI litNAME e.2).toList.flatMap fun f =>
  (starLazy (· ≠ '\n') f.2).flatMap fun g =>
  (classOne (· = '\n') g.2).flatMap fun h =>
  (starGreedy isWS h.2).flatMap fun i =>
  (litCI litMEMO i.2).toList.flatMap fun j =>
  (starLazy (· ≠ '\n') j.2).flatMap fun k =>
  (confOpt k.2).flatMap fun l =>
  (classOne (· = '\n') l.2).flatMap fun m =>
  (lazyLines m.2).flatMap fun n =>
  (starGreedy isWS n.2).flatMap fun o =>
  (litCI litSTMTTRNclose o.2).toList.map fun p =>
  (⟨a.1 ++ b.1 ++ c.1 ++ d.1,
    e.1 ++ f.1, g.1,
    i.1 ++ j.1, k.1, l.1,
    n.1 ++ o.1 ++ p.1⟩, p.2)

/-- The match `re` returns at the start of `s`: the first candidate in
priority order. -/
def stmttrnMatch (s : List Char) : Option (Groups × List Char) :=
  (stmttrnCands s).head?

/-- The `repl` replacement function inside `OFXRepairer.repair`:
`new_name = name_tag + memo_line + '\n'` (when a name tag matched),
`new_memo = memo_tag + name_line + conf_field + '\n'` (when a memo tag
matched), result `pre + new_name + new_memo + post`. -/
def repl (g : Groups) : List Char :=
  let new_name := if !g.name_tag.isEmpty then g.name_tag ++ g.memo_line ++ ['\n'] else []
  let new_memo := if !g.memo_tag.isEmpty then g.memo_tag ++ g.name_line ++ g.conf_field ++ ['\n'] else []
  g.pre ++ new_name ++ new_memo ++ g.post

/-- The scan loop of `re.sub`: at each position try the pattern; on a match
emit the replacement and continue after the matched text, otherwise copy one
character and move on.  `fuel` only forces termination; every step consumes
at least one character (a match always consumes the 9-character literal
`<STMTTRN>` and more), so `fuel = s.length` never runs out. -/
def subAux : Nat → List Char → List Char
  | 0, s => s
  | fuel + 1, s =>
    match stmttrnMatch s with
    | some (g, r) => repl g ++ subAux fuel r
    | none =>
      match s with
      | [] => []
      | c :: cs => c :: subAux fuel cs

/-- `OFXRepairer.repair`: `RE_STMTTRN.sub(repl, to_repair)`. -/
def repair (s : List Char) : List Char := subAux s.length s

/-! ## Encoding resolver: `OFXRepairer.codec_name_from_ofx_headers` -/

/-- Outcome of the resolver: a codec name, or the
`AssertionError("OFX file lacks valid ENCODING and CHARSET entries.")`
raised for an unrecognized `ENCODING` value. -/
inductive CodecOutcome where
  | codec (name : List Char)
  | unsupportedEncoding
deriving Repr, DecidableEq

/-- `OFXRepairer.codec_name_from_ofx_headers`, with the `ENCODING` and
`CHARSET` header entries passed as the result of `headers.get`: `none` when
the key is absent.  Python's `if not enc` treats both an absent key and an
empty value as falsy; `headers.get("CHARSET", "1252")` defaults only when
the key is absent. -/
def codec_name_from_ofx_headers (encoding charset : Option (List Char)) :
    CodecOutcome :=
  match encoding with
  | none => .codec ('a' :: 's' :: 'c' :: 'i' :: 'i' :: [])
  | some enc =>
    if enc.isEmpty then .codec ('a' :: 's' :: 'c' :: 'i' :: 'i' :: [])
    else if enc = ('U' :: 'S' :: 'A' :: 'S' :: 'C' :: 'I' :: 'I' :: []) then
      .codec ('c' :: 'p' :: [] ++ charset.getD ('1' :: '2' :: '5' :: '2' :: []))
    else if enc = ('U' :: 'N' :: 'I' :: 'C' :: 'O' :: 'D' :: 'E' :: []) ∨
            enc = ('U' :: 'T' :: 'F' :: '-' :: '8' :: []) then
      .codec ('u' :: 't' :: 'f' :: '-' :: '8' :: [])
    else .unsupportedEncoding

/-! ## The per-file loop of `main`

`main` iterates over the given paths.  For each path whose lower-cased
extension is `.ofx` or `.qfx` it calls
`FilterInOutFiles.open_in_out_files`, which opens the input (raising
`IOError(ENOENT)` if it does not exist), derives the output path by
inserting `.repaired` before the extension, raises `OSError(EEXIST)` if a
file already exists there, and otherwise **creates the output file**
(empty, mode `'wb'`).  `IOError`/`OSError` are caught, a `SORRY` message is
printed, and then the loop executes `break` — abandoning every remaining
path — after which `main` returns 0.  Next `OFXRepairer(in_file,
out_file)` resolves the codec (an unrecognized `ENCODING` raises
`AssertionError`) and `r.write()` partitions the text (`split_input`
returning `None`s raises `CLIError`); neither exception is caught by the
per-file handler, so both propagate to `main`'s outer `except Exception`,
which returns exit code 2 with the rest of the paths unprocessed — and the
already-created empty output file left on disk.  On success the repaired
text `pre + repair(payload) + post` is written and the loop continues.

Modelled from the spec where the collaborators are outside this repository:
the file system is a path→contents association list; `ofxparse`'s
`OfxFile` is modelled as returning the file's header entries directly; and
`os.path.splitext` is modelled by keeping each path pre-split into
`(root, ext)`. -/

/-- Modelled from the spec: a file path, kept pre-split into root and
extension as `os.path.splitext` would produce it. -/
structure FPath where
  root : List Char
  ext : List Char
deriving Repr, DecidableEq

/-- Modelled from the spec: what the model keeps of a file — its
`ENCODING`/`CHARSET` header entries (as `OfxFile` would report them) and
its full decoded text. -/
structure OFXFileData where
  encoding : Option (List Char)
  charset : Option (List Char)
  text : List Char
deriving Repr, DecidableEq

/-- The file system: an association list from paths to file data. -/
abbrev FS := List (FPath × OFXFileData)

def lookupFS (fs : FS) (p : FPath) : Option OFXFileData :=
  (fs.find? (fun e => e.1 = p)).map (·.2)

def setFS : FS → FPath → OFXFileData → FS
  | [], p, v => [(p, v)]
  | e :: fs, p, v => if e.1 = p then (p, v) :: fs else e :: setFS fs p v

/-- A newly created, still-empty output file (opened `'wb'`, nothing
written). -/
def emptyFile : OFXFileData := ⟨none, none, []⟩

/-- `FilterInOutFiles.generate_out_path`: insert the output extension
before the final extension; degenerate inputs pass through. -/
def generate_out_path (output_ext : List Char) (p : FPath) : FPath :=
  if (p.root ++ p.ext).isEmpty ∨ output_ext.isEmpty then p
  else ⟨p.root ++ output_ext, p.ext⟩

def dotRepaired : List Char :=
  '.' :: 'r' :: 'e' :: 'p' :: 'a' :: 'i' :: 'r' :: 'e' :: 'd' :: []

def extOfx : List Char := '.' :: 'o' :: 'f' :: 'x' :: []

def extQfx : List Char := '.' :: 'q' :: 'f' :: 'x' :: []

/-- Modelled from the spec: the per-file loop of `main` (paths already
parsed, file system explicit), returning the final file system and the
process exit code.  The control flow mirrors the `main` source above. -/
def processPaths (fs : FS) : List FPath → FS × Nat
  | [] => (fs, 0)
  | p :: rest =>
    if p.ext.map lowerCh = extOfx ∨ p.ext.map lowerCh = extQfx then
      match lookupFS fs p with
      | none => (fs, 0)
      | some file =>
        let outp := generate_out_path dotRepaired p
        if (lookupFS fs outp).isSome then (fs, 0)
        else
          let fs1 := setFS fs outp emptyFile
          match codec_name_from_ofx_headers file.encoding file.charset with
          | .unsupportedEncoding => (fs1, 2)
          | .codec _ =>
            match split_input file.text with
            | none => (fs1, 2)
            | some (pre, mid, post) =>
              processPaths (setFS fs1 outp ⟨none, none, pre ++ repair mid ++ post⟩) rest
    else
      processPaths fs rest

/-! ## Soundness of the combinators: every candidate is a split of the
input, `consumed ++ rest = input`. -/

theorem litCI_eq_some {p s : List Char} {u r : List Char}
    (h : litCI p s = some (u, r)) :
    s = u ++ r ∧ u.length = p.length ∧ ciPrefix p u = true := by
  induction p generalizing s u r with
  | nil =>
    simp only [litCI, Option.some.injEq, Prod.mk.injEq] at h
    obtain ⟨hu, hr⟩ := h
    subst hu; subst hr
    simp [ciPrefix]
  | cons p ps ih =>
    cases s with
    | nil => simp [litCI] at h
    | cons c cs =>
      simp only [litCI] at h
      split at h
      · rw [Option.map_eq_some'] at h
        obtain ⟨⟨u', r'⟩, hlit, heq⟩ := h
        obtain ⟨h1, h2, h3⟩ := ih hlit
        cases heq
        refine ⟨by simp [h1], by simp [h2], ?_⟩
        simp only [ciPrefix, h3, Bool.and_true, decide_eq_true_eq]
        assumption
      · exact absurd h (by simp)

theorem isSome_litCI (p s : List Char) : (litCI p s).isSome = ciPrefix p s := by
  induction p generalizing s with
  | nil => simp [litCI, ciPrefix]
  | cons p ps ih =>
    cases s with
    | nil => simp [litCI, ciPrefix]
    | cons c cs =>
      by_cases h : lowerCh c = lowerCh p
      · simp [litCI, ciPrefix, h, ih]
      · simp [litCI, ciPrefix, h]

theorem litCI_eq_none_of_ciPrefix {p s : List Char}
    (h : ciPrefix p s = false) : litCI p s = none := by
  have := isSome_litCI p s
  rw [h] at this
  exact Option.not_isSome_iff_eq_none.mp (by simp [this])

theorem mem_classOne {q : Char → Bool} {s u r : List Char}
    (h : (u, r) ∈ classOne q s) : s = u ++ r := by
  cases s with
  | nil => simp [classOne] at h
  | cons c cs =>
    simp only [classOne] at h
    split at h
    · simp only [List.mem_singleton, Prod.mk.injEq] at h
      obtain ⟨hu, hr⟩ := h; subst hu; subst hr; rfl
    · simp at h

theorem mem_starGreedy {q : Char → Bool} {s u r : List Char}
    (h : (u, r) ∈ starGreedy q s) : s = u ++ r := by
  induction s generalizing u r with
  | nil =>
    simp only [starGreedy, List.mem_singleton, Prod.mk.injEq] at h
    obtain ⟨hu, hr⟩ := h; subst hu; subst hr; rfl
  | cons c cs ih =>
    simp only [starGreedy] at h
    split at h
    · rw [List.mem_append] at h
      rcases h with h | h
      · rw [List.mem_map] at h
        obtain ⟨⟨u', r'⟩, hmem, heq⟩ := h
        cases heq
        simp [ih hmem]
      · simp only [List.mem_singleton, Prod.mk.injEq] at h
        obtain ⟨hu, hr⟩ := h; subst hu; subst hr; rfl
    · simp only [List.mem_singleton, Prod.mk.injEq] at h
      obtain ⟨hu, hr⟩ := h; subst hu; subst hr; rfl

theorem mem_starLazy {q : Char → Bool} {s u r : List Char}
    (h : (u, r) ∈ starLazy q s) : s = u ++ r := by
  induction s generalizing u r with
  | nil =>
    simp only [starLazy, List.mem_singleton, Prod.mk.injEq] at h
    obtain ⟨hu, hr⟩ := h; subst hu; subst hr; rfl
  | cons c cs ih =>
    simp only [starLazy, List.mem_cons] at h
    rcases h with h | h
    · cases h; rfl
    · split at h
      · rw [List.mem_map] at h
        obtain ⟨⟨u', r'⟩, hmem, heq⟩ := h
        cases heq
        simp [ih hmem]
      · simp at h

theorem mem_lineSplits {s u r : List Char}
    (h : (u, r) ∈ lineSplits s) : s = u ++ r := by
  induction s generalizing u r with
  | nil => simp [lineSplits] at h
  | cons c cs ih =>
    simp only [lineSplits] at h
    split at h
    · rename_i hc
      rw [List.mem_cons] at h
      rcases h with h | h
      · cases h; simp [hc]
      · rw [List.mem_map] at h
        obtain ⟨⟨u', r'⟩, hmem, heq⟩ := h
        cases heq
        simp [← ih hmem, hc]
    · rw [List.mem_map] at h
      obtain ⟨⟨u', r'⟩, hmem, heq⟩ := h
      cases heq
      simp [← ih hmem]

theorem mem_lazyLines {s u r : List Char}
    (h : (u, r) ∈ lazyLines s) : s = u ++ r := by
  simp only [lazyLines, List.mem_cons] at h
  rcases h with h | h
  · cases h; rfl
  · exact mem_lineSplits h

theorem mem_plusGreedy {q : Char → Bool} {s u r : List Char}
    (h : (u, r) ∈ plusGreedy q s) : s = u ++ r :=
  mem_starGreedy (List.mem_filter.mp h).1

theorem mem_confCands {s u r : List Char}
    (h : (u, r) ∈ confCands s) : s = u ++ r := by
  simp only [confCands, List.mem_flatMap, List.mem_map, Option.mem_toList,
    Option.mem_def] at h
  obtain ⟨u1, h1, u2, h2, u3, h3, u4, h4, u5, h5, u6, h6, heq⟩ := h
  cases heq
  have e1 := mem_starGreedy h1
  have e2 := (litCI_eq_some h2).1
  have e3 := mem_classOne h3
  have e4 := mem_classOne h4
  have e5 := mem_plusGreedy h5
  have e6 := mem_starGreedy h6
  simp [e1, e2, e3, e4, e5, e6]

theorem mem_confOpt {s u r : List Char}
    (h : (u, r) ∈ confOpt s) : s = u ++ r := by
  simp only [confOpt, List.mem_append, List.mem_singleton, Prod.mk.injEq] at h
  rcases h with h | ⟨hu, hr⟩
  · exact mem_confCands h
  · subst hu; subst hr; rfl

/-- Every candidate match of `RE_STMTTRN` consumes at least the 9-character
literal `<STMTTRN>`: the unconsumed rest is shorter than the input by at
least 9. -/
theorem mem_stmttrnCands_length {s : List Char} {g : Groups} {r : List Char}
    (h : (g, r) ∈ stmttrnCands s) : r.length + 9 ≤ s.length := by
  simp only [stmttrnCands, List.mem_flatMap, List.mem_map, Option.mem_toList,
    Option.mem_def] at h
  obtain ⟨a, ha, b, hb, c, hc, d, hd, e, he, f, hf, g', hg', hh, hhh, i, hi,
    j, hj, k, hk, l, hl, m, hm, n, hn, o, ho, p, hp, heq⟩ := h
  cases heq
  obtain ⟨ea, la, -⟩ := litCI_eq_some ha
  have eb := mem_starGreedy hb
  have ec := mem_classOne hc
  have ed := mem_lazyLines hd
  have ee := mem_starGreedy he
  obtain ⟨ef, -, -⟩ := litCI_eq_some hf
  have eg := mem_starLazy hg'
  have eh := mem_classOne hhh
  have ei := mem_starGreedy hi
  obtain ⟨ej, -, -⟩ := litCI_eq_some hj
  have ek := mem_starLazy hk
  have el := mem_confOpt hl
  have em := mem_classOne hm
  have en := mem_lazyLines hn
  have eo := mem_starGreedy ho
  obtain ⟨ep, -, -⟩ := litCI_eq_some hp
  have Lb := congrArg List.length eb
  have Lc := congrArg List.length ec
  have Ld := congrArg List.length ed
  have Le := congrArg List.length ee
  have Lf := congrArg List.length ef
  have Lg := congrArg List.length eg
  have Lh := congrArg List.length eh
  have Li := congrArg List.length ei
  have Lj := congrArg List.length ej
  have Lk := congrArg List.length ek
  have Ll := congrArg List.length el
  have Lm := congrArg List.length em
  have Ln := congrArg List.length en
  have Lo := congrArg List.length eo
  have Lp := congrArg List.length ep
  have Ls := congrArg List.length ea
  simp only [List.length_append] at Lb Lc Ld Le Lf Lg Lh Li Lj Lk Ll Lm Ln Lo Lp Ls
  have : litSTMTTRN.length = 9 := rfl
  omega

/-! ## Fuel-free equations for `repair` -/

theorem stmttrnMatch_length {s : List Char} {g : Groups} {r : List Char}
    (h : stmttrnMatch s = some (g, r)) : r.length + 9 ≤ s.length :=
  mem_stmttrnCands_length (List.mem_of_mem_head? h)

theorem subAux_nil : ∀ f, subAux f [] = []
  | 0 => rfl
  | _ + 1 => rfl

theorem subAux_congr : ∀ (f1 f2 : Nat) (s : List Char),
    s.length ≤ f1 → s.length ≤ f2 → subAux f1 s = subAux f2 s := by
  intro f1
  induction f1 with
  | zero =>
    intro f2 s h1 _
    have : s = [] := List.eq_nil_of_length_eq_zero (Nat.le_zero.mp h1)
    subst this
    rw [subAux_nil, subAux_nil]
  | succ f ih =>
    intro f2 s h1 h2
    cases f2 with
    | zero =>
      have : s = [] := List.eq_nil_of_length_eq_zero (Nat.le_zero.mp h2)
      subst this
      rw [subAux_nil, subAux_nil]
    | succ f2' =>
      simp only [subAux]
      cases hm : stmttrnMatch s with
      | some gr =>
        obtain ⟨g, r⟩ := gr
        have hl := stmttrnMatch_length hm
        dsimp only
        rw [ih f2' r (by omega) (by omega)]
      | none =>
        cases s with
        | nil => rfl
        | cons c cs =>
          simp only [List.length_cons] at h1 h2
          dsimp only
          rw [ih f2' cs (by omega) (by omega)]

theorem repair_nil : repair [] = [] := rfl

/-- When the pattern matches at the start, `re.sub` emits the replacement
and continues after the matched text. -/
theorem repair_match {s : List Char} {g : Groups} {r : List Char}
    (h : stmttrnMatch s = some (g, r)) : repair s = repl g ++ repair r := by
  have hl := stmttrnMatch_length h
  unfold repair
  obtain ⟨n, hn⟩ : ∃ n, s.length = n + 1 := ⟨s.length - 1, by omega⟩
  rw [hn]
  simp only [subAux]
  rw [h]
  dsimp only
  have : subAux n r = subAux r.length r :=
    subAux_congr n r.length r (by omega) le_rfl
  rw [this]

/-- When the pattern does not match at the current position, `re.sub`
copies one character and moves on. -/
theorem repair_cons_of_none {c : Char} {cs : List Char}
    (h : stmttrnMatch (c :: cs) = none) : repair (c :: cs) = c :: repair cs := by
  unfold repair
  simp only [List.length_cons, subAux]
  rw [h]

/-- If the pattern matches at no position of `s`, `re.sub` is the
identity. -/
theorem repair_eq_self_of_none {s : List Char}
    (h : ∀ r, r <:+ s → stmttrnMatch r = none) : repair s = s := by
  induction s with
  | nil => rfl
  | cons c cs ih =>
    rw [repair_cons_of_none (h _ (List.suffix_refl _)),
      ih (fun r hr => h r (hr.trans (List.suffix_cons c cs)))]

/-! ## Computation rules for the combinators on parameterized inputs -/

theorem flatMap_map {α β γ : Type} (l : List α) (f : α → β) (g : β → List γ) :
    (l.map f).flatMap g = l.flatMap (fun x => g (f x)) := by
  induction l with
  | nil => rfl
  | cons a l ih => simp only [List.map_cons, List.flatMap_cons, ih]

/-- A case-insensitive literal matches its own spelling. -/
theorem litCI_self (L r : List Char) : litCI L (L ++ r) = some (L, r) := by
  induction L with
  | nil => rfl
  | cons c cs ih => simp [litCI, ih]

theorem starGreedy_not {q : Char → Bool} {c : Char} (cs : List Char)
    (h : q c = false) : starGreedy q (c :: cs) = [([], c :: cs)] := by
  simp [starGreedy, h]

/-- Characters consumed by a greedy class star all satisfy the class. -/
theorem mem_starGreedy_class {q : Char → Bool} {s u r : List Char}
    (h : (u, r) ∈ starGreedy q s) : ∀ c ∈ u, q c = true := by
  induction s generalizing u r with
  | nil =>
    simp only [starGreedy, List.mem_singleton, Prod.mk.injEq] at h
    obtain ⟨hu, -⟩ := h; subst hu; simp
  | cons c cs ih =>
    simp only [starGreedy] at h
    split at h
    · rw [List.mem_append] at h
      rcases h with h | h
      · rw [List.mem_map] at h
        obtain ⟨⟨u', r'⟩, hmem, heq⟩ := h
        cases heq
        intro d hd
        rcases List.mem_cons.mp hd with hd | hd
        · subst hd; assumption
        · exact ih hmem d hd
      · simp only [List.mem_singleton, Prod.mk.injEq] at h
        obtain ⟨hu, -⟩ := h; subst hu; simp
    · simp only [List.mem_singleton, Prod.mk.injEq] at h
      obtain ⟨hu, -⟩ := h; subst hu; simp

theorem starGreedy_cons_step {q : Char → Bool} {c : Char} (cs : List Char)
    (h : q c = true) : starGreedy q (c :: cs) =
      (starGreedy q cs).map (fun u => (c :: u.1, u.2)) ++ [([], c :: cs)] := by
  simp [starGreedy, h]

theorem starLazy_cons_step {q : Char → Bool} {c : Char} (cs : List Char)
    (h : q c = true) : starLazy q (c :: cs) =
      ([], c :: cs) :: (starLazy q cs).map (fun u => (c :: u.1, u.2)) := by
  simp [starLazy, h]

/-- Lazy star with a stopper: when every candidate's continuation fails,
the whole chain fails. -/
theorem starLazy_flatMap_nil {γ : Type} {q : Char → Bool} {b : Char}
    {N r' : List Char} (k : List Char × List Char → List γ)
    (hN : ∀ c ∈ N, q c = true) (hb : q b = false)
    (hfail : ∀ u v, u ++ v = N → k (u, v ++ b :: r') = []) :
    (starLazy q (N ++ b :: r')).flatMap k = [] := by
  induction N generalizing k with
  | nil =>
    simp only [List.nil_append, starLazy, hb, Bool.false_eq_true, if_false,
      List.flatMap_cons, List.flatMap_nil, List.append_nil]
    exact hfail [] [] rfl
  | cons c N' ih =>
    have hc : q c = true := hN c (by simp)
    rw [List.cons_append, starLazy_cons_step _ hc, List.flatMap_cons,
      flatMap_map,
      ih (fun x => k (c :: x.1, x.2)) (fun c hc => hN c (by simp [hc]))
        (fun u v huv => hfail (c :: u) v (by rw [List.cons_append, huv]))]
    have h0 := hfail [] (c :: N') rfl
    simp only [List.cons_append] at h0 ⊢
    simp [h0]

/-- Lazy star: when every proper-prefix candidate's continuation fails, the
chain is the continuation at the full consumed text, followed by whatever
the longer candidates contribute. -/
theorem starLazy_flatMap_ex {γ : Type} {q : Char → Bool}
    {N tail : List Char} (k : List Char × List Char → List γ)
    (hN : ∀ c ∈ N, q c = true)
    (hfail : ∀ u v, u ++ v = N → v ≠ [] → k (u, v ++ tail) = []) :
    ∃ junk, (starLazy q (N ++ tail)).flatMap k = k (N, tail) ++ junk := by
  induction N generalizing k with
  | nil =>
    cases tail with
    | nil => exact ⟨[], by simp [starLazy]⟩
    | cons d ds =>
      refine ⟨(if q d then (starLazy q ds).map
          (fun u => (d :: u.1, u.2)) else []).flatMap k, ?_⟩
      simp [starLazy, List.flatMap_cons]
  | cons c N' ih =>
    have hc : q c = true := hN c (by simp)
    obtain ⟨junk, hj⟩ := ih (fun x => k (c :: x.1, x.2))
      (fun c hc => hN c (by simp [hc]))
      (fun u v huv hv => hfail (c :: u) v (by rw [List.cons_append, huv]) hv)
    refine ⟨junk, ?_⟩
    dsimp only at hj
    rw [List.cons_append, starLazy_cons_step _ hc, List.flatMap_cons,
      flatMap_map, hj]
    have h0 := hfail [] (c :: N') rfl (by simp)
    simp only [List.cons_append] at h0 ⊢
    simp [h0]

/-- Greedy star over a run that ends where the class fails: the first
candidate consumes the whole run. -/
theorem starGreedy_cons_ex {q : Char → Bool} {D tail : List Char}
    (hD : ∀ c ∈ D, q c = true)
    (ht : tail = [] ∨ ∃ b r', tail = b :: r' ∧ q b = false) :
    ∃ junk, starGreedy q (D ++ tail) = (D, tail) :: junk := by
  induction D with
  | nil =>
    rcases ht with h | ⟨b, r', hb, hq⟩
    · subst h; exact ⟨[], rfl⟩
    · subst hb
      exact ⟨[], by simp [starGreedy, hq]⟩
  | cons c D' ih =>
    have hc : q c = true := hD c (by simp)
    obtain ⟨junk, hj⟩ := ih (fun c hc => hD c (by simp [hc]))
    refine ⟨junk.map (fun u => (c :: u.1, u.2)) ++ [([], (c :: D') ++ tail)], ?_⟩
    rw [List.cons_append, starGreedy_cons_step _ hc, hj, List.map_cons]
    simp

/-- Greedy whitespace star over `ts ++ '\n' :: r` with `r` starting
non-whitespace: the first candidate swallows the newline, the second stops
just before it. -/
theorem starGreedy_ws_nl_ex {ts r : List Char}
    (hts : ∀ c ∈ ts, isWS c = true ∧ ¬c = '\n')
    (hr : ∃ b r', r = b :: r' ∧ isWS b = false) :
    ∃ junk, starGreedy isWS (ts ++ '\n' :: r) =
      (ts ++ ['\n'], r) :: (ts, '\n' :: r) :: junk := by
  induction ts with
  | nil =>
    obtain ⟨b, r', hb, hws⟩ := hr
    subst hb
    refine ⟨[], ?_⟩
    have hnl : isWS '\n' = true := by decide
    rw [List.nil_append, starGreedy_cons_step _ hnl, starGreedy_not _ hws]
    rfl
  | cons c ts' ih =>
    have hc : isWS c = true := (hts c (by simp)).1
    obtain ⟨junk, hj⟩ := ih (fun c hc => hts c (by simp [hc]))
    refine ⟨junk.map (fun u => (c :: u.1, u.2)) ++
      [([], (c :: ts') ++ '\n' :: r)], ?_⟩
    rw [List.cons_append, starGreedy_cons_step _ hc, hj, List.map_cons,
      List.map_cons]
    simp

/-- A whitespace character is not a digit. -/
theorem not_digit_of_ws {c : Char} (h : isWS c = true) : isDigitCh c = false := by
  simp only [isWS, decide_eq_true_eq] at h
  rcases h with h | h | h | h | h | h <;> subst h <;> decide

/-! ## Case-insensitive occurrence lemmas -/

theorem ciPrefix_false_of_ciSubstr {p s : List Char}
    (h : ciSubstr p s = false) : ciPrefix p s = false := by
  cases s with
  | nil => simpa [ciSubstr] using h
  | cons c cs =>
    simp only [ciSubstr, Bool.or_eq_false_iff] at h
    exact h.1

theorem ciSubstr_append_false {p A Y : List Char}
    (h : ciSubstr p (A ++ Y) = false) : ciSubstr p Y = false := by
  induction A with
  | nil => exact h
  | cons a A' ih =>
    simp only [List.cons_append, ciSubstr, Bool.or_eq_false_iff] at h
    exact ih h.2

/-- A case-insensitive literal none of whose characters folds to `b` cannot
match across a `b`: matching at the front of `B ++ b :: t` is the same as
matching at the front of `B` alone. -/
theorem ciPrefix_append_stop {p : List Char} {b : Char} {B t : List Char}
    (hp : ∀ c ∈ p, lowerCh c ≠ lowerCh b) :
    ciPrefix p (B ++ b :: t) = ciPrefix p B := by
  induction p generalizing B with
  | nil => rfl
  | cons q ps ih =>
    cases B with
    | nil =>
      have : ¬ lowerCh b = lowerCh q := fun h => hp q (by simp) h.symm
      simp [ciPrefix, this]
    | cons c cs =>
      simp only [List.cons_append, ciPrefix, List.append_eq]
      rw [ih (fun c hc => hp c (by simp [hc]))]

/-- Occurrences of such a literal in `A ++ b :: t` lie entirely inside `A`
or entirely inside `b :: t`. -/
theorem ciSubstr_append_stop {p : List Char} {b : Char} {A t : List Char}
    (hp : ∀ c ∈ p, lowerCh c ≠ lowerCh b) :
    ciSubstr p (A ++ b :: t) = (ciSubstr p A || ciSubstr p (b :: t)) := by
  induction A with
  | nil =>
    cases p with
    | nil => simp [ciSubstr, ciPrefix]
    | cons q ps => simp [ciSubstr, ciPrefix]
  | cons a A' ih =>
    simp only [List.cons_append, ciSubstr, List.append_eq]
    rw [ih]
    have h1 : ciPrefix p ((a :: A') ++ b :: t) = ciPrefix p (a :: A') :=
      ciPrefix_append_stop hp
    simp only [List.cons_append] at h1
    rw [h1]
    cases hx : ciPrefix p (a :: A') <;> simp [ciSubstr]

theorem litCI_none_of_ciSubstr_stop {p : List Char} {b : Char}
    {B t : List Char} (hp : ∀ c ∈ p, lowerCh c ≠ lowerCh b)
    (hB : ciSubstr p B = false) :
    litCI p (B ++ b :: t) = none := by
  apply litCI_eq_none_of_ciPrefix
  rw [ciPrefix_append_stop hp]
  exact ciPrefix_false_of_ciSubstr hB

/-! ## Failure of the confirmation group -/

theorem flatMap_eq_nil {α β : Type} {l : List α} {f : α → List β}
    (h : ∀ x ∈ l, f x = []) : l.flatMap f = [] :=
  List.flatMap_eq_nil_iff.mpr h

/-- If the literal `Confirmation` cannot match at any whitespace-skip
position, the confirmation group body has no candidates. -/
theorem confCands_eq_nil {s : List Char}
    (h : ∀ w r, (w, r) ∈ starGreedy isWS s → litCI litConfirmation r = none) :
    confCands s = [] := by
  unfold confCands
  apply flatMap_eq_nil
  intro ⟨w, r⟩ hmem
  rw [h w r hmem]
  rfl

/-- `confCands` fails on `X ++ b :: t` when `X` contains a non-whitespace
character (so the whitespace skip cannot leave `X`), `Confirmation` does
not occur in `X`, and the literal cannot cross the boundary character
`b`. -/
theorem confCands_nil_stop {X : List Char} {b : Char} {t : List Char}
    (hb : ∀ c ∈ litConfirmation, lowerCh c ≠ lowerCh b)
    (hb2 : lowerCh b ≠ 'c')
    (hX : ciSubstr litConfirmation X = false)
    (hnonws : ∃ c ∈ X, isWS c = false) :
    confCands (X ++ b :: t) = [] := by
  apply confCands_eq_nil
  intro w r hmem
  have hsplit := mem_starGreedy hmem
  have hclass := mem_starGreedy_class hmem
  rw [List.append_eq_append_iff] at hsplit
  rcases hsplit with ⟨a, hwa, -⟩ | ⟨c', hXw, hr⟩
  · obtain ⟨c, hcX, hcws⟩ := hnonws
    have hcw : c ∈ w := hwa ▸ List.mem_append_left a hcX
    rw [hclass c hcw] at hcws
    exact absurd hcws (by simp)
  · cases c' with
    | nil =>
      rw [List.nil_append] at hr
      subst hr
      apply litCI_eq_none_of_ciPrefix
      have hC : lowerCh 'C' = 'c' := by decide
      simp [litConfirmation, ciPrefix, hC, hb2]
    | cons a0 a' =>
      subst hr
      apply litCI_none_of_ciSubstr_stop hb
      have : ciSubstr litConfirmation (w ++ (a0 :: a')) = false := hXw ▸ hX
      exact ciSubstr_append_false this

/-- The whole `conf_field`-plus-newline chain fails when the group body has
no candidates and the current character is not a newline. -/
theorem confChain_nil {γ : Type} {c0 : Char} {s : List Char}
    (k : List Char × List Char → List Char × List Char → List γ)
    (h1 : confCands (c0 :: s) = []) (h2 : ¬ c0 = '\n') :
    (confOpt (c0 :: s)).flatMap
      (fun l => (classOne (· = '\n') l.2).flatMap (k l)) = [] := by
  simp [confOpt, h1, List.flatMap_cons, classOne, h2]

/-! ## Line-splitting lemmas -/

theorem lineSplits_eq_nil {A : List Char} (hA : ∀ c ∈ A, ¬ c = '\n') :
    lineSplits A = [] := by
  induction A with
  | nil => rfl
  | cons a A' ih =>
    have : ¬ a = '\n' := hA a (by simp)
    simp [lineSplits, this, ih (fun c hc => hA c (by simp [hc]))]

theorem lineSplits_append_line {A r : List Char} (hA : ∀ c ∈ A, ¬ c = '\n') :
    lineSplits (A ++ '\n' :: r) =
      (A ++ ['\n'], r) :: (lineSplits r).map (fun u => (A ++ '\n' :: u.1, u.2)) := by
  induction A with
  | nil => simp [lineSplits]
  | cons a A' ih =>
    have ha : ¬ a = '\n' := hA a (by simp)
    simp only [List.cons_append, lineSplits, ha, if_false, List.append_eq,
      ih (fun c hc => hA c (by simp [hc])), List.map_cons, List.map_map]
    refine congrArg₂ List.cons rfl ?_
    apply List.map_congr_left
    intro u _
    rfl

/-! ## Locating the first match of the backtracking enumeration

The engine returns the first candidate, i.e. the head of the `flatMap`
chain.  To compute it we only need: the failing prefix of candidates, the
first succeeding candidate, and the head of its continuation; everything
after is irrelevant. -/

theorem head?_flatMap {α β : Type} (l₀ : List α) (a : α) (l₁ : List α)
    (f : α → List β) {b : β} (h0 : ∀ x ∈ l₀, f x = [])
    (hh : (f a).head? = some b) :
    ((l₀ ++ a :: l₁).flatMap f).head? = some b := by
  rw [List.flatMap_append, flatMap_eq_nil h0, List.nil_append,
    List.flatMap_cons]
  cases hfa : f a with
  | nil => rw [hfa] at hh; simp at hh
  | cons y ys =>
    rw [hfa] at hh
    simp only [List.head?_cons, Option.some.injEq] at hh
    simp [hh]

theorem classOne_neg {q : Char → Bool} {c : Char} (cs : List Char)
    (h : q c = false) : classOne q (c :: cs) = [] := by
  simp [classOne, h]

theorem classOne_pos {q : Char → Bool} {c : Char} (cs : List Char)
    (h : q c = true) : classOne q (c :: cs) = [([c], cs)] := by
  simp [classOne, h]

theorem litCI_self' (L : List Char) : litCI L L = some (L, []) := by
  have := litCI_self L []
  rwa [List.append_nil] at this

theorem head?_append_of_head? {α : Type} {l l' : List α} {b : α}
    (h : l.head? = some b) : (l ++ l').head? = some b := by
  cases l with
  | nil => simp at h
  | cons x xs => simpa using h

/-- `head?` through a lazy-star scan: all shorter candidates fail, and the
continuation at the full consumed text starts with the result. -/
theorem head?_starLazy_flatMap {γ : Type} {q : Char → Bool}
    {N tail : List Char} (k : List Char × List Char → List γ) {b : γ}
    (hN : ∀ c ∈ N, q c = true)
    (hfail : ∀ u v, u ++ v = N → v ≠ [] → k (u, v ++ tail) = [])
    (hh : (k (N, tail)).head? = some b) :
    ((starLazy q (N ++ tail)).flatMap k).head? = some b := by
  obtain ⟨junk, hj⟩ := starLazy_flatMap_ex k hN hfail
  rw [hj]
  exact head?_append_of_head? hh

/-- `head?` through a greedy-star scan whose run is bounded by a class
failure: the first candidate consumes the whole run. -/
theorem head?_starGreedy_flatMap {γ : Type} {q : Char → Bool}
    {D tail : List Char} (k : List Char × List Char → List γ) {b : γ}
    (hD : ∀ c ∈ D, q c = true)
    (ht : tail = [] ∨ ∃ b0 r', tail = b0 :: r' ∧ q b0 = false)
    (hh : (k (D, tail)).head? = some b) :
    ((starGreedy q (D ++ tail)).flatMap k).head? = some b := by
  obtain ⟨junk, hj⟩ := starGreedy_cons_ex hD ht
  rw [hj, List.flatMap_cons]
  exact head?_append_of_head? hh

/-- `confCands` fails on `X ++ '\n' :: t` when `Confirmation` does not
occur in `X` and cannot match at any suffix of `'\n' :: t`. -/
theorem confCands_nil_nl {X t : List Char}
    (hX : ciSubstr litConfirmation X = false)
    (ht : ∀ r ∈ ('\n' :: t).tails, litCI litConfirmation r = none) :
    confCands (X ++ '\n' :: t) = [] := by
  apply confCands_eq_nil
  intro w r hmem
  have hsplit := mem_starGreedy hmem
  rw [List.append_eq_append_iff] at hsplit
  rcases hsplit with ⟨a, hwa, har⟩ | ⟨c', hXw, hr⟩
  · refine ht r ((List.mem_tails r _).mpr ?_)
    rw [har]
    exact List.suffix_append a r
  · cases c' with
    | nil =>
      rw [List.nil_append] at hr
      subst hr
      exact ht _ ((List.mem_tails _ _).mpr (List.suffix_refl _))
    | cons a0 a' =>
      subst hr
      apply litCI_none_of_ciSubstr_stop
      · intro c hc
        have : ∀ c ∈ litConfirmation, lowerCh c ≠ lowerCh '\n' := by decide
        exact this c hc
      · have : ciSubstr litConfirmation (w ++ (a0 :: a')) = false := hXw ▸ hX
        exact ciSubstr_append_false this

/-! ## The repair templates

`recT1 N M` is a minimal well-formed transaction record with both a name
line (value `N`) and a memo line (value `M`); `confText ds ts` is a
trailing confirmation annotation ` Confirmation #<ds><ts>` with digits `ds`
and trailing whitespace `ts`. -/

def recT1 (N M : List Char) : List Char :=
  litSTMTTRN ++ '\n' :: (litNAME ++ N ++ '\n' ::
    (litMEMO ++ M ++ '\n' :: litSTMTTRNclose))

def confText (ds ts : List Char) : List Char :=
  ' ' :: (litConfirmation ++ ' ' :: '#' :: (ds ++ ts))

/-- The named groups produced by matching `RE_STMTTRN` against a record
whose `pre` group consumed the lines `D` after the opener's newline, with
name value `N`, memo value `Mb` and confirmation annotation `conf`. -/
def groupsRec (D N Mb conf : List Char) : Groups :=
  ⟨litSTMTTRN ++ '\n' :: D, litNAME, N, litMEMO, Mb, conf, litSTMTTRNclose⟩

theorem toList_some {α : Type} (a : α) : (Option.some a).toList = [a] := rfl

theorem lazyLines_eq (s : List Char) : lazyLines s = ([], s) :: lineSplits s := rfl

/-- The continuation of the `RE_STMTTRN` match after the memo tag of a
minimal single record `recT1 N M`: the earlier groups are already
determined (`pre = "<STMTTRN>\n"`, `name_tag = "<NAME>"`, `name_line = N`,
`memo_tag = "<MEMO>"`); the memo line, confirmation group and record close
remain. -/
def memoCont (D N : List Char) : List Char × List Char → List (Groups × List Char) :=
  fun k => (confOpt k.2).flatMap fun l =>
    (classOne (fun x => decide (x = '\n')) l.2).flatMap fun m =>
      (lazyLines m.2).flatMap fun n =>
        (starGreedy isWS n.2).flatMap fun o =>
          (litCI litSTMTTRNclose o.2).toList.map fun p =>
            (⟨litSTMTTRN ++ [] ++ ['\n'] ++ D, [] ++ litNAME, N, [] ++ litMEMO,
              k.1, l.1, n.1 ++ o.1 ++ p.1⟩, p.2)

/-- Matching `RE_STMTTRN` against a minimal record `recT1 N M`: the match
is anchored at the record opener; the whitespace run after `<STMTTRN>`
consumes nothing and the bare `\n` matches the opener's newline; zero
lines are lazily consumed; the name tag matches with no whitespace skip;
the name value is the whole name line.  The result is then decided by the
memo scan, abstracted as `H`. -/
theorem stmttrnMatch_recT1 {N M : List Char} {res : Groups × List Char}
    (hN : ∀ c ∈ N, ¬ c = '\n') (hM : ∀ c ∈ M, ¬ c = '\n')
    (H : ((starLazy (fun x => decide (x ≠ '\n')) (M ++ '\n' :: litSTMTTRNclose)).flatMap
        (memoCont [] N)).head? = some res) :
    stmttrnMatch (recT1 N M) = some res := by
  have hNAMEc : ∀ c ∈ litNAME, ¬ c = '\n' := by decide
  have hMEMOc : ∀ c ∈ litMEMO, ¬ c = '\n' := by decide
  have hNAMEnl : ∀ c ∈ litNAME ++ N, ¬ c = '\n' := by
    intro c hc
    rcases List.mem_append.mp hc with h | h
    · exact hNAMEc c h
    · exact hN c h
  have hMEMOnl : ∀ c ∈ litMEMO ++ M, ¬ c = '\n' := by
    intro c hc
    rcases List.mem_append.mp hc with h | h
    · exact hMEMOc c h
    · exact hM c h
  unfold stmttrnMatch stmttrnCands recT1
  rw [litCI_self, toList_some]
  rw [List.flatMap_cons, List.flatMap_nil, List.append_nil]
  dsimp only
  -- the whitespace-then-newline of `pre`: candidates (['\n'], X) then ([], '\n'::X)
  rw [show starGreedy isWS ('\n' :: (litNAME ++ N ++ '\n' :: (litMEMO ++ M ++ '\n' :: litSTMTTRNclose)))
      = [(['\n'], litNAME ++ N ++ '\n' :: (litMEMO ++ M ++ '\n' :: litSTMTTRNclose)),
         ([], '\n' :: (litNAME ++ N ++ '\n' :: (litMEMO ++ M ++ '\n' :: litSTMTTRNclose)))] from rfl]
  refine head?_flatMap [(['\n'], litNAME ++ N ++ '\n' :: (litMEMO ++ M ++ '\n' :: litSTMTTRNclose))]
    ([], '\n' :: (litNAME ++ N ++ '\n' :: (litMEMO ++ M ++ '\n' :: litSTMTTRNclose))) [] _ ?_ ?_
  · intro x hx
    rw [List.mem_singleton] at hx
    subst hx
    rfl
  · dsimp only
    rw [show classOne (fun x => decide (x = '\n'))
        ('\n' :: (litNAME ++ N ++ '\n' :: (litMEMO ++ M ++ '\n' :: litSTMTTRNclose)))
      = [(['\n'], litNAME ++ N ++ '\n' :: (litMEMO ++ M ++ '\n' :: litSTMTTRNclose))] from rfl]
    rw [List.flatMap_cons, List.flatMap_nil, List.append_nil]
    dsimp only
    -- the record's line structure: zero lazily consumed lines, name found at once
    rw [show litNAME ++ N ++ '\n' :: (litMEMO ++ M ++ '\n' :: litSTMTTRNclose)
        = (litNAME ++ N) ++ '\n' :: (litMEMO ++ M ++ '\n' :: litSTMTTRNclose) from by
      simp [List.append_assoc]]
    rw [show litMEMO ++ M ++ '\n' :: litSTMTTRNclose
        = (litMEMO ++ M) ++ '\n' :: litSTMTTRNclose from by simp [List.append_assoc]]
    rw [lazyLines_eq ((litNAME ++ N) ++ '\n' :: ((litMEMO ++ M) ++ '\n' :: litSTMTTRNclose))]
    rw [lineSplits_append_line hNAMEnl]
    rw [lineSplits_append_line hMEMOnl]
    rw [show lineSplits litSTMTTRNclose = [] from rfl]
    rw [List.map_nil, List.map_cons, List.map_nil]
    refine head?_flatMap []
      (([], (litNAME ++ N) ++ '\n' :: ((litMEMO ++ M) ++ '\n' :: litSTMTTRNclose))) _ _ ?_ ?_
    · intro x hx
      simp at hx
    · dsimp only
      -- name tag: no whitespace to skip, `<NAME>` matches
      rw [show starGreedy isWS ((litNAME ++ N) ++ '\n' :: ((litMEMO ++ M) ++ '\n' :: litSTMTTRNclose))
          = [([], (litNAME ++ N) ++ '\n' :: ((litMEMO ++ M) ++ '\n' :: litSTMTTRNclose))] from rfl]
      rw [List.flatMap_cons, List.flatMap_nil, List.append_nil]
      dsimp only
      rw [List.append_assoc litNAME N ('\n' :: ((litMEMO ++ M) ++ '\n' :: litSTMTTRNclose))]
      rw [litCI_self litNAME (N ++ '\n' :: ((litMEMO ++ M) ++ '\n' :: litSTMTTRNclose)), toList_some]
      rw [List.flatMap_cons, List.flatMap_nil, List.append_nil]
      dsimp only
      -- name value: the lazy star stops at the line's newline
      refine head?_starLazy_flatMap _ (fun c hc => by simp [hN c hc]) ?_ ?_
      · intro u v huv hv
        cases v with
        | nil => exact absurd rfl hv
        | cons c v' =>
          dsimp only
          have hcN : c ∈ N := huv ▸ List.mem_append_right u (List.mem_cons_self c v')
          have e : classOne (fun x => decide (x = '\n'))
              ((c :: v') ++ '\n' :: ((litMEMO ++ M) ++ '\n' :: litSTMTTRNclose)) = [] :=
            classOne_neg _ (by simp [hN c hcN])
          rw [e, List.flatMap_nil]
      · dsimp only
        rw [show classOne (fun x => decide (x = '\n'))
            ('\n' :: ((litMEMO ++ M) ++ '\n' :: litSTMTTRNclose))
          = [(['\n'], (litMEMO ++ M) ++ '\n' :: litSTMTTRNclose)] from rfl]
        rw [List.flatMap_cons, List.flatMap_nil, List.append_nil]
        dsimp only
        -- memo tag
        rw [show starGreedy isWS ((litMEMO ++ M) ++ '\n' :: litSTMTTRNclose)
            = [([], (litMEMO ++ M) ++ '\n' :: litSTMTTRNclose)] from rfl]
        rw [List.flatMap_cons, List.flatMap_nil, List.append_nil]
        dsimp only
        rw [List.append_assoc litMEMO M ('\n' :: litSTMTTRNclose)]
        rw [litCI_self litMEMO (M ++ '\n' :: litSTMTTRNclose), toList_some]
        rw [List.flatMap_cons, List.flatMap_nil, List.append_nil]
        dsimp only
        exact H

/-- The memo scan on a memo line with no confirmation annotation: the memo
value is the whole line and `conf_field` is empty. -/
theorem memoCont_noconf {D N M : List Char}
    (hM : ∀ c ∈ M, ¬ c = '\n')
    (hMc : ciSubstr litConfirmation M = false) :
    ((starLazy (fun x => decide (x ≠ '\n')) (M ++ '\n' :: litSTMTTRNclose)).flatMap
        (memoCont D N)).head? = some (groupsRec D N M [], []) := by
  refine head?_starLazy_flatMap _ (fun c hc => by simp [hM c hc]) ?_ ?_
  · intro u v huv hv
    cases v with
    | nil => exact absurd rfl hv
    | cons c v' =>
      unfold memoCont
      dsimp only
      have hcM : c ∈ M := huv ▸ List.mem_append_right u (List.mem_cons_self c v')
      have hsub : ciSubstr litConfirmation (c :: v') = false := by
        rw [← huv] at hMc
        exact ciSubstr_append_false hMc
      have h1 : confCands ((c :: v') ++ '\n' :: litSTMTTRNclose) = [] :=
        confCands_nil_nl hsub (by decide)
      exact confChain_nil _ h1 (hM c hcM)
  · unfold memoCont
    dsimp only
    rw [show confOpt ('\n' :: litSTMTTRNclose) = [([], '\n' :: litSTMTTRNclose)] from rfl]
    rw [List.flatMap_cons, List.flatMap_nil, List.append_nil]
    dsimp only
    rw [show classOne (fun x => decide (x = '\n')) ('\n' :: litSTMTTRNclose)
      = [(['\n'], litSTMTTRNclose)] from rfl]
    rw [List.flatMap_cons, List.flatMap_nil, List.append_nil]
    dsimp only
    rw [lazyLines_eq litSTMTTRNclose, show lineSplits litSTMTTRNclose = [] from rfl]
    rw [List.flatMap_cons, List.flatMap_nil, List.append_nil]
    dsimp only
    rw [show starGreedy isWS litSTMTTRNclose = [([], litSTMTTRNclose)] from rfl]
    rw [List.flatMap_cons, List.flatMap_nil, List.append_nil]
    dsimp only
    rw [litCI_self', toList_some]
    rfl

/-- `RE_STMTTRN` on a minimal record whose memo carries no confirmation
annotation: the name and memo values are swapped wholesale. -/
theorem stmttrnMatch_T1_noconf {N M : List Char}
    (hN : ∀ c ∈ N, ¬ c = '\n') (hM : ∀ c ∈ M, ¬ c = '\n')
    (hMc : ciSubstr litConfirmation M = false) :
    stmttrnMatch (recT1 N M) = some (groupsRec [] N M [], []) :=
  stmttrnMatch_recT1 hN hM (memoCont_noconf hM hMc)


/-- The confirmation group body on ` Confirmation #<ds><ts>` followed by the
newline and the record close: the greedy trailing `\s*` first swallows the
newline (a candidate the following `\n` of the pattern will reject), then
stops just before it. -/
theorem confCands_conf_ex {ds ts : List Char}
    (hds : ds ≠ []) (hdig : ∀ c ∈ ds, isDigitCh c = true)
    (hts : ∀ c ∈ ts, isWS c = true ∧ ¬ c = '\n') :
    ∃ junk, confCands (confText ds ts ++ '\n' :: litSTMTTRNclose)
      = (confText ds (ts ++ ['\n']), litSTMTTRNclose)
        :: (confText ds ts, '\n' :: litSTMTTRNclose) :: junk := by
  rw [show confText ds ts ++ '\n' :: litSTMTTRNclose
      = ' ' :: (litConfirmation ++ ' ' :: '#' :: ((ds ++ ts) ++ '\n' :: litSTMTTRNclose)) from rfl]
  unfold confCands
  rw [show starGreedy isWS
        (' ' :: (litConfirmation ++ ' ' :: '#' :: ((ds ++ ts) ++ '\n' :: litSTMTTRNclose)))
      = [([' '], litConfirmation ++ ' ' :: '#' :: ((ds ++ ts) ++ '\n' :: litSTMTTRNclose)),
         ([], ' ' :: (litConfirmation ++ ' ' :: '#' :: ((ds ++ ts) ++ '\n' :: litSTMTTRNclose)))] from rfl]
  rw [List.flatMap_cons]
  dsimp only
  rw [litCI_self litConfirmation (' ' :: '#' :: ((ds ++ ts) ++ '\n' :: litSTMTTRNclose)), toList_some]
  rw [List.flatMap_cons, List.flatMap_nil, List.append_nil]
  dsimp only
  rw [show classOne isWS (' ' :: '#' :: ((ds ++ ts) ++ '\n' :: litSTMTTRNclose))
      = [([' '], '#' :: ((ds ++ ts) ++ '\n' :: litSTMTTRNclose))] from rfl]
  rw [List.flatMap_cons, List.flatMap_nil, List.append_nil]
  dsimp only
  rw [show classOne (fun x => decide (x = '#')) ('#' :: ((ds ++ ts) ++ '\n' :: litSTMTTRNclose))
      = [(['#'], (ds ++ ts) ++ '\n' :: litSTMTTRNclose)] from rfl]
  rw [List.flatMap_cons, List.flatMap_nil, List.append_nil]
  dsimp only
  rw [List.append_assoc ds ts ('\n' :: litSTMTTRNclose)]
  unfold plusGreedy
  obtain ⟨junkD, hD⟩ := starGreedy_cons_ex hdig
    (show ts ++ '\n' :: litSTMTTRNclose = [] ∨ _ from by
      cases ts with
      | nil => exact Or.inr ⟨'\n', litSTMTTRNclose, rfl, by decide⟩
      | cons t0 ts' =>
        exact Or.inr ⟨t0, ts' ++ '\n' :: litSTMTTRNclose, rfl,
          not_digit_of_ws (hts t0 (by simp)).1⟩)
  rw [hD]
  rw [List.filter_cons_of_pos (by simp [hds])]
  rw [List.flatMap_cons]
  dsimp only
  obtain ⟨junkW, hW⟩ := starGreedy_ws_nl_ex hts
    (show ∃ b r', litSTMTTRNclose = b :: r' ∧ isWS b = false from
      ⟨'<', _, rfl, by decide⟩)
  rw [hW]
  rw [List.map_cons, List.map_cons]
  dsimp only
  rw [List.cons_append, List.cons_append]
  exact ⟨_, rfl⟩


/-- The memo scan on a memo line `Mb ++ " Confirmation #<ds><ts>"`: the
lazy star stops at `Mb` (whose own text contains no confirmation literal
and whose last character is not whitespace), and the confirmation group
captures the annotation, leaving the newline for the pattern's `\n`. -/
theorem memoCont_conf {D N Mb ds ts : List Char}
    (hMb : ∀ c ∈ Mb, ¬ c = '\n')
    (hMbc : ciSubstr litConfirmation Mb = false)
    (hlast : ∀ c, Mb.getLast? = some c → isWS c = false)
    (hds : ds ≠ []) (hdig : ∀ c ∈ ds, isDigitCh c = true)
    (hts : ∀ c ∈ ts, isWS c = true ∧ ¬ c = '\n') :
    ((starLazy (fun x => decide (x ≠ '\n'))
        ((Mb ++ confText ds ts) ++ '\n' :: litSTMTTRNclose)).flatMap
        (memoCont D N)).head? = some (groupsRec D N Mb (confText ds ts), []) := by
  rw [List.append_assoc Mb (confText ds ts) ('\n' :: litSTMTTRNclose)]
  refine head?_starLazy_flatMap _ (fun c hc => by simp [hMb c hc]) ?_ ?_
  · intro u v huv hv
    cases v with
    | nil => exact absurd rfl hv
    | cons c v' =>
      unfold memoCont
      dsimp only
      have hcM : c ∈ Mb := huv ▸ List.mem_append_right u (List.mem_cons_self c v')
      have hsub : ciSubstr litConfirmation (c :: v') = false := by
        rw [← huv] at hMbc
        exact ciSubstr_append_false hMbc
      have hgl : Mb.getLast? = (c :: v').getLast? := by
        rw [← huv]
        exact List.getLast?_append_of_ne_nil u (by simp)
      have hlast' : isWS ((c :: v').getLast (by simp)) = false := by
        apply hlast
        rw [hgl]
        exact List.getLast?_eq_getLast_of_ne_nil _
      have hnonws : ∃ ch ∈ (c :: v'), isWS ch = false :=
        ⟨(c :: v').getLast (by simp), List.getLast_mem _, hlast'⟩
      have h1 : confCands ((c :: v') ++ (confText ds ts ++ '\n' :: litSTMTTRNclose)) = [] :=
        confCands_nil_stop (by decide) (by decide) hsub hnonws
      exact confChain_nil _ h1 (hMb c hcM)
  · unfold memoCont
    dsimp only
    unfold confOpt
    obtain ⟨junkC, hC⟩ := confCands_conf_ex hds hdig hts
    rw [hC]
    rw [List.cons_append, List.cons_append]
    refine head?_flatMap [(confText ds (ts ++ ['\n']), litSTMTTRNclose)]
      ((confText ds ts, '\n' :: litSTMTTRNclose)) _ _ ?_ ?_
    · intro x hx
      rw [List.mem_singleton] at hx
      subst hx
      rfl
    · dsimp only
      rw [show classOne (fun x => decide (x = '\n')) ('\n' :: litSTMTTRNclose)
        = [(['\n'], litSTMTTRNclose)] from rfl]
      rw [List.flatMap_cons, List.flatMap_nil, List.append_nil]
      dsimp only
      rw [lazyLines_eq litSTMTTRNclose, show lineSplits litSTMTTRNclose = [] from rfl]
      rw [List.flatMap_cons, List.flatMap_nil, List.append_nil]
      dsimp only
      rw [show starGreedy isWS litSTMTTRNclose = [([], litSTMTTRNclose)] from rfl]
      rw [List.flatMap_cons, List.flatMap_nil, List.append_nil]
      dsimp only
      rw [litCI_self', toList_some]
      rfl

/-- `RE_STMTTRN` on a minimal record whose memo is `Mb` followed by a
confirmation annotation: the new name is `Mb` alone, and the annotation is
captured in `conf_field`. -/
theorem stmttrnMatch_T1_conf {N Mb ds ts : List Char}
    (hN : ∀ c ∈ N, ¬ c = '\n')
    (hMb : ∀ c ∈ Mb, ¬ c = '\n')
    (hMbc : ciSubstr litConfirmation Mb = false)
    (hlast : ∀ c, Mb.getLast? = some c → isWS c = false)
    (hds : ds ≠ []) (hdig : ∀ c ∈ ds, isDigitCh c = true)
    (hts : ∀ c ∈ ts, isWS c = true ∧ ¬ c = '\n') :
    stmttrnMatch (recT1 N (Mb ++ confText ds ts))
      = some (groupsRec [] N Mb (confText ds ts), []) := by
  refine stmttrnMatch_recT1 hN ?_ (memoCont_conf hMb hMbc hlast hds hdig hts)
  intro c hc
  rcases List.mem_append.mp hc with h | h
  · exact hMb c h
  · unfold confText at h
    rcases List.mem_cons.mp h with h | h
    · subst h; decide
    · rcases List.mem_append.mp h with h | h
      · revert h
        have : ∀ c ∈ litConfirmation, ¬ c = '\n' := by decide
        exact this c
      · rcases List.mem_cons.mp h with h | h
        · subst h; decide
        · rcases List.mem_cons.mp h with h | h
          · subst h; decide
          · rcases List.mem_append.mp h with h | h
            · have : isDigitCh c = true := hdig c h
              intro hceq
              subst hceq
              simp [isDigitCh] at this
            · exact (hts c h).2


/-- Repair of a minimal record with no confirmation annotation swaps the
name and memo values wholesale. -/
theorem repair_T1_noconf {N M : List Char}
    (hN : ∀ c ∈ N, ¬ c = '\n') (hM : ∀ c ∈ M, ¬ c = '\n')
    (hMc : ciSubstr litConfirmation M = false) :
    repair (recT1 N M) = recT1 M N := by
  rw [repair_match (stmttrnMatch_T1_noconf hN hM hMc), repair_nil]
  simp [repl, groupsRec, recT1, litNAME, litMEMO]

/-- Repair of a minimal record with a confirmation annotation: the new
name is the memo body, the new memo is the old name followed by the
annotation. -/
theorem repair_T1_conf {N Mb ds ts : List Char}
    (hN : ∀ c ∈ N, ¬ c = '\n')
    (hMb : ∀ c ∈ Mb, ¬ c = '\n')
    (hMbc : ciSubstr litConfirmation Mb = false)
    (hlast : ∀ c, Mb.getLast? = some c → isWS c = false)
    (hds : ds ≠ []) (hdig : ∀ c ∈ ds, isDigitCh c = true)
    (hts : ∀ c ∈ ts, isWS c = true ∧ ¬ c = '\n') :
    repair (recT1 N (Mb ++ confText ds ts)) = recT1 Mb (N ++ confText ds ts) := by
  rw [repair_match (stmttrnMatch_T1_conf hN hMb hMbc hlast hds hdig hts), repair_nil]
  simp [repl, groupsRec, recT1, litNAME, litMEMO]


/-- **C1.** For every eligible transaction record (one containing both a
name sub-field with value `N` and a memo sub-field), the repair emits the
name tag followed by the memo body `Mb` (the memo value with any trailing
confirmation annotation removed), and the memo tag followed by `N`
concatenated with the confirmation annotation — both when the annotation
is present (first conjunct, memo `= Mb ++ " Confirmation #" ++ ds ++ ts`)
and when it is absent (second conjunct, `M_conf` empty). -/
theorem C1_repair_swaps_fields {N Mb ds ts : List Char}
    (hN : ∀ c ∈ N, ¬ c = '\n')
    (hMb : ∀ c ∈ Mb, ¬ c = '\n')
    (hMbc : ciSubstr litConfirmation Mb = false)
    (hlast : ∀ c, Mb.getLast? = some c → isWS c = false)
    (hds : ds ≠ []) (hdig : ∀ c ∈ ds, isDigitCh c = true)
    (hts : ∀ c ∈ ts, isWS c = true ∧ ¬ c = '\n') :
    repair (recT1 N (Mb ++ confText ds ts)) = recT1 Mb (N ++ confText ds ts)
    ∧ repair (recT1 N Mb) = recT1 Mb N :=
  ⟨repair_T1_conf hN hMb hMbc hlast hds hdig hts,
   repair_T1_noconf hN hMb hMbc⟩

/-- Witness for C1, the spec's own instance: memo
`"HYDRO 8509 Confirmation #743046"`, name `"Bill payment online"`; the
repaired record has name `"HYDRO 8509"` and memo
`"Bill payment online Confirmation #743046"`. -/
theorem C1_witness :
    repair (recT1 "Bill payment online".toList
        ("HYDRO 8509".toList ++ confText "743046".toList []))
      = recT1 "HYDRO 8509".toList
        ("Bill payment online".toList ++ confText "743046".toList []) :=
  (C1_repair_swaps_fields (by decide) (by decide) (by decide) (by decide)
    (by decide) (by decide) (by decide)).1

/-- **C6.** Swap involution: on a single well-formed record with no
confirmation annotation, repairing twice restores the original name/memo
assignment. -/
theorem C6_repair_involution {N M : List Char}
    (hN : ∀ c ∈ N, ¬ c = '\n') (hNc : ciSubstr litConfirmation N = false)
    (hM : ∀ c ∈ M, ¬ c = '\n') (hMc : ciSubstr litConfirmation M = false) :
    repair (repair (recT1 N M)) = recT1 N M := by
  rw [repair_T1_noconf hN hM hMc, repair_T1_noconf hM hN hNc]

/-- Witness for C6 at a concrete record. -/
theorem C6_witness :
    repair (repair (recT1 "Funds transfer online".toList
        "from Pay As You Go Chequing".toList))
      = recT1 "Funds transfer online".toList "from Pay As You Go Chequing".toList :=
  C6_repair_involution (by decide) (by decide) (by decide) (by decide)


/-- Two adjacent records: the first with only a name sub-field (value
`A`), the second with name `B` and memo `C`. -/
def recT2 (A B C : List Char) : List Char :=
  litSTMTTRN ++ '\n' :: (litNAME ++ A ++ '\n' :: (litSTMTTRNclose ++ '\n' ::
    (litSTMTTRN ++ '\n' :: (litNAME ++ B ++ '\n' ::
      (litMEMO ++ C ++ '\n' :: litSTMTTRNclose)))))

/-- The lines the `pre` group lazily consumes when `RE_STMTTRN` matches
`recT2`: the whole first record and the second record's opener. -/
def preLinesT2 (A : List Char) : List Char :=
  (litNAME ++ A) ++ '\n' :: (litSTMTTRNclose ++ '\n' :: (litSTMTTRN ++ ['\n']))

/-- Matching `RE_STMTTRN` against `recT2 A B C`: the match starts at the
*first* `<STMTTRN>`, but the name/memo pair it captures is the second
record's — the pattern cannot complete inside the first record (which has
no `<MEMO>`), so the lazy line group consumes the whole first record and
the second opener, and the name tag matches at the second record's
`<NAME>`. -/
theorem stmttrnMatch_T2 {A B C : List Char}
    (hA : ∀ c ∈ A, ¬ c = '\n') (hB : ∀ c ∈ B, ¬ c = '\n')
    (hC : ∀ c ∈ C, ¬ c = '\n')
    (hCc : ciSubstr litConfirmation C = false) :
    stmttrnMatch (recT2 A B C) = some (groupsRec (preLinesT2 A) B C [], []) := by
  have hNAMEc : ∀ c ∈ litNAME, ¬ c = '\n' := by decide
  have hMEMOc : ∀ c ∈ litMEMO, ¬ c = '\n' := by decide
  have hNAMEnlA : ∀ c ∈ litNAME ++ A, ¬ c = '\n' := by
    intro c hc
    rcases List.mem_append.mp hc with h | h
    · exact hNAMEc c h
    · exact hA c h
  have hNAMEnlB : ∀ c ∈ litNAME ++ B, ¬ c = '\n' := by
    intro c hc
    rcases List.mem_append.mp hc with h | h
    · exact hNAMEc c h
    · exact hB c h
  have hMEMOnlC : ∀ c ∈ litMEMO ++ C, ¬ c = '\n' := by
    intro c hc
    rcases List.mem_append.mp hc with h | h
    · exact hMEMOc c h
    · exact hC c h
  unfold stmttrnMatch stmttrnCands recT2
  rw [litCI_self, toList_some]
  rw [List.flatMap_cons, List.flatMap_nil, List.append_nil]
  dsimp only
  rw [show starGreedy isWS ('\n' :: (litNAME ++ A ++ '\n' :: (litSTMTTRNclose ++ '\n' ::
        (litSTMTTRN ++ '\n' :: (litNAME ++ B ++ '\n' ::
          (litMEMO ++ C ++ '\n' :: litSTMTTRNclose))))))
      = [(['\n'], litNAME ++ A ++ '\n' :: (litSTMTTRNclose ++ '\n' ::
            (litSTMTTRN ++ '\n' :: (litNAME ++ B ++ '\n' ::
              (litMEMO ++ C ++ '\n' :: litSTMTTRNclose))))),
         ([], '\n' :: (litNAME ++ A ++ '\n' :: (litSTMTTRNclose ++ '\n' ::
            (litSTMTTRN ++ '\n' :: (litNAME ++ B ++ '\n' ::
              (litMEMO ++ C ++ '\n' :: litSTMTTRNclose))))))] from rfl]
  refine head?_flatMap [(['\n'], litNAME ++ A ++ '\n' :: (litSTMTTRNclose ++ '\n' ::
        (litSTMTTRN ++ '\n' :: (litNAME ++ B ++ '\n' ::
          (litMEMO ++ C ++ '\n' :: litSTMTTRNclose)))))]
    ([], '\n' :: (litNAME ++ A ++ '\n' :: (litSTMTTRNclose ++ '\n' ::
        (litSTMTTRN ++ '\n' :: (litNAME ++ B ++ '\n' ::
          (litMEMO ++ C ++ '\n' :: litSTMTTRNclose)))))) [] _ ?_ ?_
  · intro x hx
    rw [List.mem_singleton] at hx
    subst hx
    rfl
  · dsimp only
    rw [show classOne (fun x => decide (x = '\n'))
        ('\n' :: (litNAME ++ A ++ '\n' :: (litSTMTTRNclose ++ '\n' ::
          (litSTMTTRN ++ '\n' :: (litNAME ++ B ++ '\n' ::
            (litMEMO ++ C ++ '\n' :: litSTMTTRNclose))))))
      = [(['\n'], litNAME ++ A ++ '\n' :: (litSTMTTRNclose ++ '\n' ::
          (litSTMTTRN ++ '\n' :: (litNAME ++ B ++ '\n' ::
            (litMEMO ++ C ++ '\n' :: litSTMTTRNclose)))))] from rfl]
    rw [List.flatMap_cons, List.flatMap_nil, List.append_nil]
    dsimp only
    -- re-associate so each line is `line ++ '\n' :: rest`
    rw [show litNAME ++ A ++ '\n' :: (litSTMTTRNclose ++ '\n' ::
          (litSTMTTRN ++ '\n' :: (litNAME ++ B ++ '\n' ::
            (litMEMO ++ C ++ '\n' :: litSTMTTRNclose))))
        = (litNAME ++ A) ++ '\n' :: (litSTMTTRNclose ++ '\n' ::
          (litSTMTTRN ++ '\n' :: (litNAME ++ B ++ '\n' ::
            (litMEMO ++ C ++ '\n' :: litSTMTTRNclose)))) from by
      simp [List.append_assoc]]
    rw [show litNAME ++ B ++ '\n' :: (litMEMO ++ C ++ '\n' :: litSTMTTRNclose)
        = (litNAME ++ B) ++ '\n' :: (litMEMO ++ C ++ '\n' :: litSTMTTRNclose) from by
      simp [List.append_assoc]]
    rw [show litMEMO ++ C ++ '\n' :: litSTMTTRNclose
        = (litMEMO ++ C) ++ '\n' :: litSTMTTRNclose from by simp [List.append_assoc]]
    rw [lazyLines_eq ((litNAME ++ A) ++ '\n' :: (litSTMTTRNclose ++ '\n' ::
      (litSTMTTRN ++ '\n' :: ((litNAME ++ B) ++ '\n' ::
        ((litMEMO ++ C) ++ '\n' :: litSTMTTRNclose)))))]
    rw [lineSplits_append_line hNAMEnlA]
    rw [lineSplits_append_line (show ∀ c ∈ litSTMTTRNclose, ¬ c = '\n' from by decide)]
    rw [lineSplits_append_line (show ∀ c ∈ litSTMTTRN, ¬ c = '\n' from by decide)]
    rw [lineSplits_append_line hNAMEnlB]
    rw [lineSplits_append_line hMEMOnlC]
    rw [show lineSplits litSTMTTRNclose = [] from rfl]
    simp only [List.map_nil, List.map_cons]
    refine head?_flatMap
      [([], (litNAME ++ A) ++ '\n' :: (litSTMTTRNclose ++ '\n' ::
          (litSTMTTRN ++ '\n' :: ((litNAME ++ B) ++ '\n' ::
            ((litMEMO ++ C) ++ '\n' :: litSTMTTRNclose))))),
       ((litNAME ++ A) ++ ['\n'], litSTMTTRNclose ++ '\n' ::
          (litSTMTTRN ++ '\n' :: ((litNAME ++ B) ++ '\n' ::
            ((litMEMO ++ C) ++ '\n' :: litSTMTTRNclose)))),
       ((litNAME ++ A) ++ '\n' :: (litSTMTTRNclose ++ ['\n']),
          litSTMTTRN ++ '\n' :: ((litNAME ++ B) ++ '\n' ::
            ((litMEMO ++ C) ++ '\n' :: litSTMTTRNclose)))]
      (((litNAME ++ A) ++ '\n' :: (litSTMTTRNclose ++ '\n' :: (litSTMTTRN ++ ['\n'])),
          (litNAME ++ B) ++ '\n' :: ((litMEMO ++ C) ++ '\n' :: litSTMTTRNclose)))
      _ _ ?_ ?_
    · intro x hx
      simp only [List.mem_cons, List.not_mem_nil, or_false] at hx
      rcases hx with rfl | rfl | rfl
      · -- zero lines: the name matches at the first record, but that
        -- record has no memo tag
        dsimp only
        rw [show starGreedy isWS ((litNAME ++ A) ++ '\n' :: (litSTMTTRNclose ++ '\n' ::
              (litSTMTTRN ++ '\n' :: ((litNAME ++ B) ++ '\n' ::
                ((litMEMO ++ C) ++ '\n' :: litSTMTTRNclose)))))
            = [([], (litNAME ++ A) ++ '\n' :: (litSTMTTRNclose ++ '\n' ::
              (litSTMTTRN ++ '\n' :: ((litNAME ++ B) ++ '\n' ::
                ((litMEMO ++ C) ++ '\n' :: litSTMTTRNclose)))))] from rfl]
        rw [List.flatMap_cons, List.flatMap_nil, List.append_nil]
        dsimp only
        rw [List.append_assoc litNAME A ('\n' :: (litSTMTTRNclose ++ '\n' ::
          (litSTMTTRN ++ '\n' :: ((litNAME ++ B) ++ '\n' ::
            ((litMEMO ++ C) ++ '\n' :: litSTMTTRNclose)))))]
        rw [litCI_self litNAME (A ++ '\n' :: (litSTMTTRNclose ++ '\n' ::
          (litSTMTTRN ++ '\n' :: ((litNAME ++ B) ++ '\n' ::
            ((litMEMO ++ C) ++ '\n' :: litSTMTTRNclose))))), toList_some]
        rw [List.flatMap_cons, List.flatMap_nil, List.append_nil]
        dsimp only
        refine starLazy_flatMap_nil _ (fun c hc => by simp [hA c hc]) (by decide) ?_
        intro u v huv
        cases v with
        | nil => rfl
        | cons c v' =>
          dsimp only
          have hcA : c ∈ A := huv ▸ List.mem_append_right u (List.mem_cons_self c v')
          have e : classOne (fun x => decide (x = '\n'))
              ((c :: v') ++ '\n' :: (litSTMTTRNclose ++ '\n' ::
                (litSTMTTRN ++ '\n' :: ((litNAME ++ B) ++ '\n' ::
                  ((litMEMO ++ C) ++ '\n' :: litSTMTTRNclose))))) = [] :=
            classOne_neg _ (by simp [hA c hcA])
          rw [e, List.flatMap_nil]
      · -- one line: position at the first record's close, no name tag
        rfl
      · -- two lines: position at the second opener, no name tag
        rfl
    · dsimp only
      rw [show starGreedy isWS ((litNAME ++ B) ++ '\n' ::
            ((litMEMO ++ C) ++ '\n' :: litSTMTTRNclose))
          = [([], (litNAME ++ B) ++ '\n' ::
            ((litMEMO ++ C) ++ '\n' :: litSTMTTRNclose))] from rfl]
      rw [List.flatMap_cons, List.flatMap_nil, List.append_nil]
      dsimp only
      rw [List.append_assoc litNAME B ('\n' :: ((litMEMO ++ C) ++ '\n' :: litSTMTTRNclose))]
      rw [litCI_self litNAME (B ++ '\n' :: ((litMEMO ++ C) ++ '\n' :: litSTMTTRNclose)),
        toList_some]
      rw [List.flatMap_cons, List.flatMap_nil, List.append_nil]
      dsimp only
      refine head?_starLazy_flatMap _ (fun c hc => by simp [hB c hc]) ?_ ?_
      · intro u v huv hv
        cases v with
        | nil => exact absurd rfl hv
        | cons c v' =>
          dsimp only
          have hcB : c ∈ B := huv ▸ List.mem_append_right u (List.mem_cons_self c v')
          have e : classOne (fun x => decide (x = '\n'))
              ((c :: v') ++ '\n' :: ((litMEMO ++ C) ++ '\n' :: litSTMTTRNclose)) = [] :=
            classOne_neg _ (by simp [hB c hcB])
          rw [e, List.flatMap_nil]
      · dsimp only
        rw [show classOne (fun x => decide (x = '\n'))
            ('\n' :: ((litMEMO ++ C) ++ '\n' :: litSTMTTRNclose))
          = [(['\n'], (litMEMO ++ C) ++ '\n' :: litSTMTTRNclose)] from rfl]
        rw [List.flatMap_cons, List.flatMap_nil, List.append_nil]
        dsimp only
        rw [show starGreedy isWS ((litMEMO ++ C) ++ '\n' :: litSTMTTRNclose)
            = [([], (litMEMO ++ C) ++ '\n' :: litSTMTTRNclose)] from rfl]
        rw [List.flatMap_cons, List.flatMap_nil, List.append_nil]
        dsimp only
        rw [List.append_assoc litMEMO C ('\n' :: litSTMTTRNclose)]
        rw [litCI_self litMEMO (C ++ '\n' :: litSTMTTRNclose), toList_some]
        rw [List.flatMap_cons, List.flatMap_nil, List.append_nil]
        dsimp only
        exact memoCont_noconf hC hCc


/-- **C2.** Record isolation: in a payload of two adjacent records — the
first with only a name sub-field, the second with both name and memo —
repair leaves the first record byte-identical and swaps only the second
record's fields; the scan never moves text across record boundaries. -/
theorem C2_record_isolation {A B C : List Char}
    (hA : ∀ c ∈ A, ¬ c = '\n') (hB : ∀ c ∈ B, ¬ c = '\n')
    (hC : ∀ c ∈ C, ¬ c = '\n')
    (hCc : ciSubstr litConfirmation C = false) :
    repair (recT2 A B C) = recT2 A C B := by
  rw [repair_match (stmttrnMatch_T2 hA hB hC hCc), repair_nil]
  simp [repl, groupsRec, recT2, preLinesT2, litNAME, litMEMO]

/-- Witness for C2, the spec's own instance: first record
`"Interest credited to account"` (name only) is unchanged; the second
becomes name `"from Pay As You Go Chequing"`, memo
`"Funds transfer online"`. -/
theorem C2_witness :
    repair (recT2 "Interest credited to account".toList
        "Funds transfer online".toList "from Pay As You Go Chequing".toList)
      = recT2 "Interest credited to account".toList
        "from Pay As You Go Chequing".toList "Funds transfer online".toList :=
  C2_record_isolation (by decide) (by decide) (by decide) (by decide)


theorem toNat_ofNat {n : Nat} (h : n.isValidChar) : (Char.ofNat n).toNat = n := by
  unfold Char.ofNat
  rw [dif_pos h]
  rfl

/-- ASCII case folding maps no character onto `<` except `<` itself. -/
theorem lowerCh_eq_lt {c : Char} (h : lowerCh c = '<') : c = '<' := by
  unfold lowerCh at h
  split at h
  · rename_i hr
    have h1 : c.toNat ≤ 90 := hr.2
    have h2 : 65 ≤ c.toNat := hr.1
    have hv : (c.toNat + 32).isValidChar := Or.inl (by omega)
    have := congrArg Char.toNat h
    rw [toNat_ofNat hv] at this
    have : c.toNat + 32 = 60 := this
    omega
  · exact h

/-- `RE_STMTTRN` can only match at a `<`. -/
theorem stmttrnMatch_none_of_head_ne {c : Char} (cs : List Char)
    (h : ¬ c = '<') : stmttrnMatch (c :: cs) = none := by
  unfold stmttrnMatch stmttrnCands
  have hlit : litCI litSTMTTRN (c :: cs) = none := by
    rw [show litSTMTTRN = '<' :: 'S' :: 'T' :: 'M' :: 'T' :: 'T' :: 'R' :: 'N' :: '>' :: []
      from rfl]
    simp only [litCI]
    rw [if_neg]
    intro heq
    exact h (lowerCh_eq_lt heq)
  rw [hlit]
  rfl

theorem suffix_append_cases {α : Type} {r X Y : List α} (h : r <:+ X ++ Y) :
    (∃ w, w <:+ X ∧ w ≠ [] ∧ r = w ++ Y) ∨ r <:+ Y := by
  induction X with
  | nil => right; simpa using h
  | cons a X' ih =>
    rw [List.cons_append, List.suffix_cons_iff] at h
    rcases h with h | h
    · left
      exact ⟨a :: X', List.suffix_refl _, by simp, by rw [h, List.cons_append]⟩
    · rcases ih h with ⟨w, hw, hne, hr⟩ | h
      · left
        exact ⟨w, hw.trans (List.suffix_cons a X'), hne, hr⟩
      · right
        exact h

theorem forall_suffix_append {α : Type} (P : List α → Prop) {X Y : List α}
    (h1 : ∀ w, w <:+ X → w ≠ [] → P (w ++ Y)) (h2 : ∀ r, r <:+ Y → P r) :
    ∀ r, r <:+ X ++ Y → P r := by
  intro r hr
  rcases suffix_append_cases hr with ⟨w, hw, hne, rfl⟩ | h
  · exact h1 w hw hne
  · exact h2 r h

/-- No match can start strictly inside text whose characters are all
distinct from `<` (after case folding this means: no `<` at all). -/
theorem noMatch_inside_values {A Y : List Char}
    (hA : ∀ c ∈ A, ¬ c = '<') :
    ∀ w, w <:+ A → w ≠ [] → stmttrnMatch (w ++ Y) = none := by
  intro w hw hne
  cases w with
  | nil => exact absurd rfl hne
  | cons c w' =>
    rw [List.cons_append]
    exact stmttrnMatch_none_of_head_ne _ (hA c (hw.subset (List.mem_cons_self c w')))


/-- A record with only a name sub-field. -/
def recT3a (A : List Char) : List Char :=
  litSTMTTRN ++ '\n' :: (litNAME ++ A ++ '\n' :: litSTMTTRNclose)

/-- A record with only a memo sub-field. -/
def recT3b (M : List Char) : List Char :=
  litSTMTTRN ++ '\n' :: (litMEMO ++ M ++ '\n' :: litSTMTTRNclose)

/-- A record with a single sub-field line `L` that is neither a name nor a
memo. -/
def recT3c (L : List Char) : List Char :=
  litSTMTTRN ++ '\n' :: (L ++ '\n' :: litSTMTTRNclose)

/-- `RE_STMTTRN` does not match at the start of a name-only record: the
pattern requires a memo tag directly after the name line, and no later
line provides a name tag either. -/
theorem stmttrnMatch_T3a_none {A : List Char} (hA : ∀ c ∈ A, ¬ c = '\n') :
    stmttrnMatch (recT3a A) = none := by
  have hNAMEnl : ∀ c ∈ litNAME ++ A, ¬ c = '\n' := by
    intro c hc
    rcases List.mem_append.mp hc with h | h
    · revert h
      have : ∀ c ∈ litNAME, ¬ c = '\n' := by decide
      exact this c
    · exact hA c h
  unfold stmttrnMatch stmttrnCands recT3a
  rw [litCI_self, toList_some, List.flatMap_cons, List.flatMap_nil, List.append_nil]
  dsimp only
  rw [List.head?_eq_none_iff]
  rw [show starGreedy isWS ('\n' :: (litNAME ++ A ++ '\n' :: litSTMTTRNclose))
      = [(['\n'], litNAME ++ A ++ '\n' :: litSTMTTRNclose),
         ([], '\n' :: (litNAME ++ A ++ '\n' :: litSTMTTRNclose))] from rfl]
  rw [List.flatMap_cons, List.flatMap_cons, List.flatMap_nil, List.append_nil]
  rw [List.append_eq_nil]
  constructor
  · rfl
  · dsimp only
    rw [show classOne (fun x => decide (x = '\n'))
        ('\n' :: (litNAME ++ A ++ '\n' :: litSTMTTRNclose))
      = [(['\n'], litNAME ++ A ++ '\n' :: litSTMTTRNclose)] from rfl]
    rw [List.flatMap_cons, List.flatMap_nil, List.append_nil]
    dsimp only
    rw [show litNAME ++ A ++ '\n' :: litSTMTTRNclose
        = (litNAME ++ A) ++ '\n' :: litSTMTTRNclose from by simp [List.append_assoc]]
    rw [lazyLines_eq ((litNAME ++ A) ++ '\n' :: litSTMTTRNclose)]
    rw [lineSplits_append_line hNAMEnl, show lineSplits litSTMTTRNclose = [] from rfl,
      List.map_nil]
    rw [List.flatMap_cons, List.flatMap_cons, List.flatMap_nil, List.append_nil]
    rw [List.append_eq_nil]
    constructor
    · -- zero lines: `<NAME>` matches but no `<MEMO>` follows the name line
      dsimp only
      rw [show starGreedy isWS ((litNAME ++ A) ++ '\n' :: litSTMTTRNclose)
          = [([], (litNAME ++ A) ++ '\n' :: litSTMTTRNclose)] from rfl]
      rw [List.flatMap_cons, List.flatMap_nil, List.append_nil]
      dsimp only
      rw [List.append_assoc litNAME A ('\n' :: litSTMTTRNclose)]
      rw [litCI_self litNAME (A ++ '\n' :: litSTMTTRNclose), toList_some]
      rw [List.flatMap_cons, List.flatMap_nil, List.append_nil]
      dsimp only
      refine starLazy_flatMap_nil _ (fun c hc => by simp [hA c hc]) (by decide) ?_
      intro u v huv
      cases v with
      | nil => rfl
      | cons c v' =>
        dsimp only
        have hcA : c ∈ A := huv ▸ List.mem_append_right u (List.mem_cons_self c v')
        have e : classOne (fun x => decide (x = '\n'))
            ((c :: v') ++ '\n' :: litSTMTTRNclose) = [] :=
          classOne_neg _ (by simp [hA c hcA])
        rw [e, List.flatMap_nil]
    · -- one line: position at the record close, no name tag
      rfl

/-- `RE_STMTTRN` does not match at the start of a memo-only record: there
is no name tag anywhere. -/
theorem stmttrnMatch_T3b_none {M : List Char} (hM : ∀ c ∈ M, ¬ c = '\n') :
    stmttrnMatch (recT3b M) = none := by
  have hMEMOnl : ∀ c ∈ litMEMO ++ M, ¬ c = '\n' := by
    intro c hc
    rcases List.mem_append.mp hc with h | h
    · revert h
      have : ∀ c ∈ litMEMO, ¬ c = '\n' := by decide
      exact this c
    · exact hM c h
  unfold stmttrnMatch stmttrnCands recT3b
  rw [litCI_self, toList_some, List.flatMap_cons, List.flatMap_nil, List.append_nil]
  dsimp only
  rw [List.head?_eq_none_iff]
  rw [show starGreedy isWS ('\n' :: (litMEMO ++ M ++ '\n' :: litSTMTTRNclose))
      = [(['\n'], litMEMO ++ M ++ '\n' :: litSTMTTRNclose),
         ([], '\n' :: (litMEMO ++ M ++ '\n' :: litSTMTTRNclose))] from rfl]
  rw [List.flatMap_cons, List.flatMap_cons, List.flatMap_nil, List.append_nil]
  rw [List.append_eq_nil]
  constructor
  · rfl
  · dsimp only
    rw [show classOne (fun x => decide (x = '\n'))
        ('\n' :: (litMEMO ++ M ++ '\n' :: litSTMTTRNclose))
      = [(['\n'], litMEMO ++ M ++ '\n' :: litSTMTTRNclose)] from rfl]
    rw [List.flatMap_cons, List.flatMap_nil, List.append_nil]
    dsimp only
    rw [show litMEMO ++ M ++ '\n' :: litSTMTTRNclose
        = (litMEMO ++ M) ++ '\n' :: litSTMTTRNclose from by simp [List.append_assoc]]
    rw [lazyLines_eq ((litMEMO ++ M) ++ '\n' :: litSTMTTRNclose)]
    rw [lineSplits_append_line hMEMOnl, show lineSplits litSTMTTRNclose = [] from rfl,
      List.map_nil]
    rw [List.flatMap_cons, List.flatMap_cons, List.flatMap_nil, List.append_nil]
    rw [List.append_eq_nil]
    exact ⟨rfl, rfl⟩

/-- `RE_STMTTRN` does not match at the start of a record whose only
sub-field line is neither a name nor a memo. -/
theorem stmttrnMatch_T3c_none {c0 : Char} {L0 : List Char}
    (hL : ∀ c ∈ c0 :: L0, ¬ c = '\n')
    (hws : isWS c0 = false)
    (hname : ciPrefix litNAME ((c0 :: L0) ++ '\n' :: litSTMTTRNclose) = false) :
    stmttrnMatch (recT3c (c0 :: L0)) = none := by
  unfold stmttrnMatch stmttrnCands recT3c
  rw [litCI_self, toList_some, List.flatMap_cons, List.flatMap_nil, List.append_nil]
  dsimp only
  rw [List.head?_eq_none_iff]
  rw [List.cons_append]
  rw [show starGreedy isWS ('\n' :: c0 :: (L0 ++ '\n' :: litSTMTTRNclose))
      = (starGreedy isWS (c0 :: (L0 ++ '\n' :: litSTMTTRNclose))).map
          (fun u => ('\n' :: u.1, u.2))
        ++ [([], '\n' :: c0 :: (L0 ++ '\n' :: litSTMTTRNclose))] from
    starGreedy_cons_step _ (by decide)]
  rw [starGreedy_not _ hws]
  rw [List.map_cons, List.map_nil]
  dsimp only
  rw [List.singleton_append]
  rw [List.flatMap_cons, List.flatMap_cons, List.flatMap_nil, List.append_nil]
  rw [List.append_eq_nil]
  constructor
  · dsimp only
    have e : classOne (fun x => decide (x = '\n'))
        (c0 :: (L0 ++ '\n' :: litSTMTTRNclose)) = [] :=
      classOne_neg _ (by simp [hL c0 (List.mem_cons_self c0 L0)])
    rw [e, List.flatMap_nil]
  · dsimp only
    rw [show classOne (fun x => decide (x = '\n'))
        ('\n' :: c0 :: (L0 ++ '\n' :: litSTMTTRNclose))
      = [(['\n'], c0 :: (L0 ++ '\n' :: litSTMTTRNclose))] from rfl]
    rw [List.flatMap_cons, List.flatMap_nil, List.append_nil]
    dsimp only
    rw [show c0 :: (L0 ++ '\n' :: litSTMTTRNclose)
        = (c0 :: L0) ++ '\n' :: litSTMTTRNclose from rfl]
    rw [lazyLines_eq ((c0 :: L0) ++ '\n' :: litSTMTTRNclose)]
    rw [lineSplits_append_line hL, show lineSplits litSTMTTRNclose = [] from rfl,
      List.map_nil]
    rw [List.flatMap_cons, List.flatMap_cons, List.flatMap_nil, List.append_nil]
    rw [List.append_eq_nil]
    constructor
    · -- zero lines: whitespace skip stops at `c0`, which starts no `<NAME>`
      dsimp only
      rw [show (c0 :: L0) ++ '\n' :: litSTMTTRNclose
          = c0 :: (L0 ++ '\n' :: litSTMTTRNclose) from rfl]
      rw [starGreedy_not _ hws]
      rw [List.flatMap_cons, List.flatMap_nil, List.append_nil]
      dsimp only
      have e2 : litCI litNAME (c0 :: (L0 ++ '\n' :: litSTMTTRNclose)) = none :=
        litCI_eq_none_of_ciPrefix hname
      rw [e2]
      rfl
    · -- one line: position at the record close, no name tag
      rfl


end Vanswap

namespace Vanswap

/-- Repair leaves a name-only record byte-identical: the pattern matches
at no position of it. -/
theorem repair_T3a {A : List Char}
    (hAnl : ∀ c ∈ A, ¬ c = '\n') (hAlt : ∀ c ∈ A, ¬ c = '<') :
    repair (recT3a A) = recT3a A := by
  apply repair_eq_self_of_none
  have main := stmttrnMatch_T3a_none hAnl
  unfold recT3a at main ⊢
  refine forall_suffix_append (fun r => stmttrnMatch r = none) ?_ ?_
  · intro w hw hne
    have hmem : w ∈ litSTMTTRN.tails := (List.mem_tails _ _).mpr hw
    fin_cases hmem <;> first | rfl | exact main
  · intro r hr
    rcases List.suffix_cons_iff.mp hr with h | h
    · subst h; rfl
    · refine forall_suffix_append (fun r => stmttrnMatch r = none) ?_ ?_ r h
      · intro w hw hne
        rcases suffix_append_cases hw with ⟨w', hw', hne', rfl⟩ | hwA
        · rw [List.append_assoc]
          have hmem : w' ∈ litNAME.tails := (List.mem_tails _ _).mpr hw'
          fin_cases hmem <;> first | rfl | exact absurd rfl hne'
        · exact noMatch_inside_values hAlt w hwA hne
      · intro r hr
        have hconc : ∀ r ∈ ('\n' :: litSTMTTRNclose).tails, stmttrnMatch r = none := by
          decide
        exact hconc r ((List.mem_tails _ _).mpr hr)

/-- Repair leaves a memo-only record byte-identical. -/
theorem repair_T3b {M : List Char}
    (hMnl : ∀ c ∈ M, ¬ c = '\n') (hMlt : ∀ c ∈ M, ¬ c = '<') :
    repair (recT3b M) = recT3b M := by
  apply repair_eq_self_of_none
  have main := stmttrnMatch_T3b_none hMnl
  unfold recT3b at main ⊢
  refine forall_suffix_append (fun r => stmttrnMatch r = none) ?_ ?_
  · intro w hw hne
    have hmem : w ∈ litSTMTTRN.tails := (List.mem_tails _ _).mpr hw
    fin_cases hmem <;> first | rfl | exact main
  · intro r hr
    rcases List.suffix_cons_iff.mp hr with h | h
    · subst h; rfl
    · refine forall_suffix_append (fun r => stmttrnMatch r = none) ?_ ?_ r h
      · intro w hw hne
        rcases suffix_append_cases hw with ⟨w', hw', hne', rfl⟩ | hwM
        · rw [List.append_assoc]
          have hmem : w' ∈ litMEMO.tails := (List.mem_tails _ _).mpr hw'
          fin_cases hmem <;> first | rfl | exact absurd rfl hne'
        · exact noMatch_inside_values hMlt w hwM hne
      · intro r hr
        have hconc : ∀ r ∈ ('\n' :: litSTMTTRNclose).tails, stmttrnMatch r = none := by
          decide
        exact hconc r ((List.mem_tails _ _).mpr hr)

/-- Repair leaves a record with neither name nor memo byte-identical. -/
theorem repair_T3c {c0 : Char} {L0 : List Char}
    (hL : ∀ c ∈ c0 :: L0, ¬ c = '\n')
    (hLlt : ∀ c ∈ c0 :: L0, ¬ c = '<')
    (hws : isWS c0 = false)
    (hname : ciPrefix litNAME ((c0 :: L0) ++ '\n' :: litSTMTTRNclose) = false) :
    repair (recT3c (c0 :: L0)) = recT3c (c0 :: L0) := by
  apply repair_eq_self_of_none
  have main := stmttrnMatch_T3c_none hL hws hname
  unfold recT3c at main ⊢
  refine forall_suffix_append (fun r => stmttrnMatch r = none) ?_ ?_
  · intro w hw hne
    have hmem : w ∈ litSTMTTRN.tails := (List.mem_tails _ _).mpr hw
    fin_cases hmem <;> first | rfl | exact main
  · intro r hr
    rcases List.suffix_cons_iff.mp hr with h | h
    · subst h; rfl
    · refine forall_suffix_append (fun r => stmttrnMatch r = none) ?_ ?_ r h
      · intro w hw hne
        exact noMatch_inside_values hLlt w hw hne
      · intro r hr
        have hconc : ∀ r ∈ ('\n' :: litSTMTTRNclose).tails, stmttrnMatch r = none := by
          decide
        exact hconc r ((List.mem_tails _ _).mpr hr)

end Vanswap

namespace Vanswap

/-- C3: a record that lacks a name sub-field, a memo sub-field, or both
is reproduced byte-identically by `repair` (non-eligible passthrough):
the name-only record `recT3a A`, the memo-only record `recT3b M`, and the
record `recT3c` whose single sub-field line is neither a name nor a memo
all pass through unchanged. -/
theorem C3_noneligible_passthrough {A M : List Char} {c0 : Char} {L0 : List Char}
    (hA : ∀ c ∈ A, ¬ c = '\n') (hAlt : ∀ c ∈ A, ¬ c = '<')
    (hM : ∀ c ∈ M, ¬ c = '\n') (hMlt : ∀ c ∈ M, ¬ c = '<')
    (hL : ∀ c ∈ c0 :: L0, ¬ c = '\n') (hLlt : ∀ c ∈ c0 :: L0, ¬ c = '<')
    (hws : isWS c0 = false)
    (hname : ciPrefix litNAME ((c0 :: L0) ++ '\n' :: litSTMTTRNclose) = false) :
    repair (recT3a A) = recT3a A ∧
    repair (recT3b M) = recT3b M ∧
    repair (recT3c (c0 :: L0)) = recT3c (c0 :: L0) :=
  ⟨repair_T3a hA hAlt, repair_T3b hM hMlt, repair_T3c hL hLlt hws hname⟩

/-- Concrete instances of the C3 passthrough: a name-only record, a
memo-only record, and a record with an unrelated sub-field line are all
left unchanged. -/
theorem C3_witness :
    repair (recT3a "Interest credited to account".toList)
      = recT3a "Interest credited to account".toList ∧
    repair (recT3b "HYDRO 8509".toList) = recT3b "HYDRO 8509".toList ∧
    repair (recT3c ('B' :: "alance 100.00".toList))
      = recT3c ('B' :: "alance 100.00".toList) :=
  C3_noneligible_passthrough (by decide) (by decide) (by decide) (by decide)
    (by decide) (by decide) (by decide) (by decide)

end Vanswap

namespace Vanswap

/-- ASCII case folding maps only letters; a character folding to `/` is
`/` itself. -/
theorem lowerCh_eq_slash {c : Char} (h : lowerCh c = '/') : c = '/' := by
  unfold lowerCh at h
  split at h
  · rename_i hr
    have h1 : c.toNat ≤ 90 := hr.2
    have h2 : 65 ≤ c.toNat := hr.1
    have hv : (c.toNat + 32).isValidChar := Or.inl (by omega)
    have := congrArg Char.toNat h
    rw [toNat_ofNat hv] at this
    have : c.toNat + 32 = 47 := this
    omega
  · exact h

/-- Text matching `</STMTTRN>` case-insensitively contains a `/`. -/
theorem slash_mem_of_ciPrefix_close {u : List Char}
    (h : ciPrefix litSTMTTRNclose u = true) : '/' ∈ u := by
  cases u with
  | nil => exact absurd h (by decide)
  | cons c0 u1 =>
    cases u1 with
    | nil => exact absurd h (by simp [litSTMTTRNclose, ciPrefix])
    | cons c1 u2 =>
      have h1 : lowerCh c1 = lowerCh '/' := by
        simp only [litSTMTTRNclose, ciPrefix, Bool.and_eq_true,
          decide_eq_true_eq] at h
        exact h.2.1
      have h2 : c1 = '/' := lowerCh_eq_slash (h1.trans (by decide))
      subst h2
      exact List.mem_cons_of_mem _ (List.mem_cons_self _ _)

/-- Every `RE_STMTTRN` match consumes a `</STMTTRN>` literal, so the
matched text contains a `/`. -/
theorem slash_mem_of_stmttrnCands {s : List Char} {g : Groups} {r : List Char}
    (h : (g, r) ∈ stmttrnCands s) : '/' ∈ s := by
  simp only [stmttrnCands, List.mem_flatMap, List.mem_map, Option.mem_toList,
    Option.mem_def] at h
  obtain ⟨a, ha, b, hb, c, hc, d, hd, e, he, f, hf, g', hg', hh, hhh, i, hi,
    j, hj, k, hk, l, hl, m, hm, n, hn, o, ho, p, hp, heq⟩ := h
  obtain ⟨ep, -, hcip⟩ := litCI_eq_some hp
  have h16 : '/' ∈ o.2 := by
    rw [ep]; exact List.mem_append.mpr (Or.inl (slash_mem_of_ciPrefix_close hcip))
  have h15 : '/' ∈ n.2 := by
    rw [mem_starGreedy ho]; exact List.mem_append.mpr (Or.inr h16)
  have h14 : '/' ∈ m.2 := by
    rw [mem_lazyLines hn]; exact List.mem_append.mpr (Or.inr h15)
  have h13 : '/' ∈ l.2 := by
    rw [mem_classOne hm]; exact List.mem_append.mpr (Or.inr h14)
  have h12 : '/' ∈ k.2 := by
    rw [mem_confOpt hl]; exact List.mem_append.mpr (Or.inr h13)
  have h11 : '/' ∈ j.2 := by
    rw [mem_starLazy hk]; exact List.mem_append.mpr (Or.inr h12)
  have h10 : '/' ∈ i.2 := by
    rw [(litCI_eq_some hj).1]; exact List.mem_append.mpr (Or.inr h11)
  have h9 : '/' ∈ hh.2 := by
    rw [mem_starGreedy hi]; exact List.mem_append.mpr (Or.inr h10)
  have h8 : '/' ∈ g'.2 := by
    rw [mem_classOne hhh]; exact List.mem_append.mpr (Or.inr h9)
  have h7 : '/' ∈ f.2 := by
    rw [mem_starLazy hg']; exact List.mem_append.mpr (Or.inr h8)
  have h6 : '/' ∈ e.2 := by
    rw [(litCI_eq_some hf).1]; exact List.mem_append.mpr (Or.inr h7)
  have h5 : '/' ∈ d.2 := by
    rw [mem_starGreedy he]; exact List.mem_append.mpr (Or.inr h6)
  have h4 : '/' ∈ c.2 := by
    rw [mem_lazyLines hd]; exact List.mem_append.mpr (Or.inr h5)
  have h3 : '/' ∈ b.2 := by
    rw [mem_classOne hc]; exact List.mem_append.mpr (Or.inr h4)
  have h2 : '/' ∈ a.2 := by
    rw [mem_starGreedy hb]; exact List.mem_append.mpr (Or.inr h3)
  rw [(litCI_eq_some ha).1]
  exact List.mem_append.mpr (Or.inr h2)

/-- On text containing no `/` at all — in particular text with no closing
tag of any kind — `repair` is the identity. -/
theorem repair_eq_self_of_no_slash {s : List Char}
    (h : ∀ c ∈ s, ¬ c = '/') : repair s = s := by
  apply repair_eq_self_of_none
  intro r hr
  rw [stmttrnMatch, List.head?_eq_none_iff, List.eq_nil_iff_forall_not_mem]
  intro x hx
  exact h '/' (hr.subset (slash_mem_of_stmttrnCands hx)) rfl

/-- An unbalanced transaction record: opened with `<STMTTRN>`, holding a
name line and a memo line, but never closed. -/
def recT4 (A B : List Char) : List Char :=
  litSTMTTRN ++ '\n' :: (litNAME ++ A ++ '\n' :: (litMEMO ++ B ++ '\n' :: []))

/-- C8: the claimed `MalformedRecord` failure does not exist. `repair` has
no failure path (`re.sub` never raises): a structurally unparseable payload
— here a record that is opened and never closed — is silently emitted
byte-identical to the input instead of failing. -/
theorem C8_no_malformed_record_error {A B : List Char}
    (hA : ∀ c ∈ A, ¬ c = '/') (hB : ∀ c ∈ B, ¬ c = '/') :
    repair (recT4 A B) = recT4 A B := by
  apply repair_eq_self_of_no_slash
  intro c hc hceq
  subst hceq
  simp only [recT4, List.mem_append, List.mem_cons, List.not_mem_nil,
    or_false] at hc
  have hS : '/' ∉ litSTMTTRN := by decide
  have hN : '/' ∉ litNAME := by decide
  have hM : '/' ∉ litMEMO := by decide
  have hnl : ¬ ('/' : Char) = '\n' := by decide
  have hA' : '/' ∉ A := fun hm => hA '/' hm rfl
  have hB' : '/' ∉ B := fun hm => hB '/' hm rfl
  tauto

/-- Concrete instance of C8: the unbalanced payload
`"<STMTTRN>\n<NAME>a\n<MEMO>b\n"` passes through `repair` unchanged — no
error of any kind. -/
theorem C8_witness :
    repair (recT4 "a".toList "b".toList) = recT4 "a".toList "b".toList :=
  C8_no_malformed_record_error (by decide) (by decide)

end Vanswap

namespace Vanswap

/-- Soundness of the first-occurrence scan: the split is a split of the
input, the pattern matches at the split point, and at no position strictly
before it. -/
theorem splitAtFirstCI_eq_some {p : List Char} {s u r : List Char}
    (h : splitAtFirstCI p s = some (u, r)) :
    s = u ++ r ∧ ciPrefix p r = true ∧
      ∀ w, w <:+ u → w ≠ [] → ciPrefix p (w ++ r) = false := by
  induction s generalizing u r with
  | nil =>
    unfold splitAtFirstCI at h
    split at h
    · rename_i hc
      simp only [Option.some.injEq, Prod.mk.injEq] at h
      obtain ⟨hu, hr⟩ := h
      subst hu; subst hr
      exact ⟨rfl, hc, fun w hw hne => absurd (List.suffix_nil.mp hw) hne⟩
    · exact absurd h (by simp)
  | cons c cs ih =>
    unfold splitAtFirstCI at h
    split at h
    · rename_i hc
      simp only [Option.some.injEq, Prod.mk.injEq] at h
      obtain ⟨hu, hr⟩ := h
      subst hu; subst hr
      exact ⟨rfl, hc, fun w hw hne => absurd (List.suffix_nil.mp hw) hne⟩
    · rename_i hc
      rw [Bool.not_eq_true] at hc
      rw [Option.map_eq_some'] at h
      obtain ⟨⟨u', r'⟩, hrec, heq⟩ := h
      cases heq
      obtain ⟨h1, h2, h3⟩ := ih hrec
      refine ⟨by simp [h1], h2, ?_⟩
      intro w hw hne
      rcases List.suffix_cons_iff.mp hw with hw1 | hw1
      · subst hw1
        rw [List.cons_append, ← h1]
        exact hc
      · exact h3 w hw1 hne

/-- C4: when `split_input` succeeds, the three parts concatenate back to
the original text character for character; the prefix is a `<`-free run
followed by a case-insensitive `<OFX>` marker; the suffix begins with the
case-insensitive `</OFX>` marker at its first occurrence after the opening
marker (the pattern matches at no position strictly inside the payload);
and re-running the partitioner on prefix ++ payload ++ suffix reproduces
exactly the same triple. -/
theorem C4_split_characterization {s pre mid post : List Char}
    (h : split_input s = some (pre, mid, post)) :
    pre ++ (mid ++ post) = s ∧
    (∃ t o, pre = t ++ o ∧ (∀ c ∈ t, ¬ c = '<') ∧
      ciPrefix ofxOpen o = true ∧ o.length = ofxOpen.length) ∧
    ciPrefix ofxClose post = true ∧
    (∀ w, w <:+ mid → w ≠ [] → ciPrefix ofxClose (w ++ post) = false) ∧
    split_input (pre ++ (mid ++ post)) = some (pre, mid, post) := by
  have h0 := h
  unfold split_input at h
  cases hlit : litCI ofxOpen (s.dropWhile (· ≠ '<')) with
  | none => rw [hlit] at h; exact absurd h (by simp)
  | some or2 =>
    obtain ⟨o, r2⟩ := or2
    rw [hlit] at h
    dsimp only at h
    cases hsp : splitAtFirstCI ofxClose r2 with
    | none => rw [hsp] at h; exact absurd h (by simp)
    | some mp =>
      obtain ⟨mid', post'⟩ := mp
      rw [hsp] at h
      dsimp only at h
      simp only [Option.some.injEq, Prod.mk.injEq] at h
      obtain ⟨hpre, hmid, hpost⟩ := h
      subst hpre; subst hmid; subst hpost
      obtain ⟨hd, hlen, hci⟩ := litCI_eq_some hlit
      obtain ⟨h1, h2, h3⟩ := splitAtFirstCI_eq_some hsp
      have hcat : (s.takeWhile (· ≠ '<') ++ o) ++ (mid' ++ post') = s := by
        calc (s.takeWhile (· ≠ '<') ++ o) ++ (mid' ++ post')
            = s.takeWhile (· ≠ '<') ++ (o ++ r2) := by
              rw [h1]; simp [List.append_assoc]
          _ = s.takeWhile (· ≠ '<') ++ s.dropWhile (· ≠ '<') := by rw [hd]
          _ = s := List.takeWhile_append_dropWhile _ _
      refine ⟨hcat, ⟨s.takeWhile (· ≠ '<'), o, rfl, ?_, hci, hlen⟩, h2, h3, ?_⟩
      · intro c hc
        simpa using List.mem_takeWhile_imp hc
      · rw [hcat]; exact h0

/-- Concrete instance of C4 on a document with lower-case markers: the
split is case-insensitive, concatenation restores the text, the closing
marker is found at its first occurrence, and the partitioner is idempotent
on the triple. -/
theorem C4_witness :
    "foo <ofx>".toList ++ ("data".toList ++ "</ofx>bar".toList)
        = "foo <ofx>data</ofx>bar".toList ∧
    (∃ t o, "foo <ofx>".toList = t ++ o ∧ (∀ c ∈ t, ¬ c = '<') ∧
      ciPrefix ofxOpen o = true ∧ o.length = ofxOpen.length) ∧
    ciPrefix ofxClose "</ofx>bar".toList = true ∧
    (∀ w, w <:+ "data".toList → w ≠ [] →
      ciPrefix ofxClose (w ++ "</ofx>bar".toList) = false) ∧
    split_input ("foo <ofx>".toList ++ ("data".toList ++ "</ofx>bar".toList))
        = some ("foo <ofx>".toList, "data".toList, "</ofx>bar".toList) :=
  C4_split_characterization (by decide)

end Vanswap

namespace Vanswap

/-- C10: `[^<]*` stops at the first `<` of the input, so `re.match` can
try the `<OFX>` literal only there.  If the text before the first opening
marker contains a `<` — i.e. the first `<` of the input does not begin a
case-insensitive `<OFX>` — `split_input` returns `none`, no matter what
marker pairs occur later in the text. -/
theorem C10_lt_before_marker_rejects {t u : List Char}
    (ht : ∀ c ∈ t, ¬ c = '<')
    (hu : ciPrefix ofxOpen ('<' :: u) = false) :
    split_input (t ++ '<' :: u) = none := by
  have hdrop : (t ++ '<' :: u).dropWhile (· ≠ '<') = '<' :: u := by
    induction t with
    | nil => rw [List.nil_append, List.dropWhile_cons_of_neg (by simp)]
    | cons c cs ih =>
      have hc : ¬ c = '<' := ht c (List.mem_cons_self _ _)
      rw [List.cons_append, List.dropWhile_cons_of_pos (by simpa using hc)]
      exact ih (fun d hd => ht d (List.mem_cons_of_mem _ hd))
  have hnone : litCI ofxOpen ((t ++ '<' :: u).dropWhile (· ≠ '<')) = none := by
    rw [hdrop]
    have hs := isSome_litCI ofxOpen ('<' :: u)
    rw [hu] at hs
    exact Option.not_isSome_iff_eq_none.mp (by simp [hs])
  unfold split_input
  rw [hnone]

/-- Concrete instance of C10: `"a<b><ofx>hi</ofx>"` holds a full marker
pair, but the `<` of `"<b>"` precedes the opening marker, so the
partitioner rejects the document. -/
theorem C10_witness :
    split_input ("a".toList ++ '<' :: "b><ofx>hi</ofx>".toList) = none :=
  C10_lt_before_marker_rejects (by decide) (by decide)

end Vanswap

namespace Vanswap

/-- The input path of the C7 scenario. -/
def c7In : FPath := ⟨"doc".toList, extOfx⟩

/-- Its derived output path, `doc.repaired.ofx`. -/
def c7Out : FPath := generate_out_path dotRepaired c7In

/-- An input file with no/empty headers and body `text`. -/
def d7 (text : List Char) : OFXFileData := ⟨none, none, text⟩

/-- C7: when the partitioner finds no container markers, the run does fail
(`CLIError`, exit code 2, remaining paths abandoned) and no payload bytes
are written — but contrary to the claim, the output file **does** exist
afterwards: `open_in_out_files` creates it (empty) before `write` raises,
and nothing removes it. -/
theorem C7_unrecognized_leaves_empty_output {text : List Char}
    (h : split_input text = none) (rest : List FPath) :
    processPaths [(c7In, d7 text)] (c7In :: rest)
      = ([(c7In, d7 text), (c7Out, emptyFile)], 2) ∧
    lookupFS ([(c7In, d7 text), (c7Out, emptyFile)] : FS) c7Out
      = some emptyFile := by
  have hlow : List.map lowerCh ['.', 'o', 'f', 'x'] = extOfx := by decide
  constructor
  · unfold processPaths
    simp [lookupFS, List.find?, generate_out_path, c7In, c7Out, d7, setFS, h,
      extOfx, extQfx, dotRepaired, emptyFile, codec_name_from_ofx_headers, hlow]
  · simp [lookupFS, List.find?, c7In, c7Out, generate_out_path, dotRepaired,
      extOfx]

/-- Concrete instance of C7: a document with no `<OFX>` markers aborts the
run with exit code 2, and the created-but-empty output file remains. -/
theorem C7_witness :
    processPaths [(c7In, d7 "no markers here".toList)] [c7In]
      = ([(c7In, d7 "no markers here".toList), (c7Out, emptyFile)], 2) ∧
    lookupFS ([(c7In, d7 "no markers here".toList), (c7Out, emptyFile)] : FS)
        c7Out = some emptyFile :=
  C7_unrecognized_leaves_empty_output (by decide) []

/-- A path whose file carries an `ENCODING` value outside the recognized
set. -/
def c5Bad : FPath := ⟨"bad".toList, extOfx⟩

/-- A well-formed file queued after the bad one. -/
def c5Good : FPath := ⟨"good".toList, extOfx⟩

def c5BadData : OFXFileData := ⟨some "EBCDIC".toList, none, "<OFX>a</OFX>".toList⟩

def c5GoodData : OFXFileData := ⟨none, none, "<OFX>a</OFX>".toList⟩

def c5FS : FS := [(c5Bad, c5BadData), (c5Good, c5GoodData)]

/-- C5: the codec mapping itself is as claimed — absent or empty
`ENCODING` gives `ascii`; `USASCII` gives `cp<CHARSET>` with `cp1252` when
`CHARSET` is absent; `UNICODE`/`UTF-8` give `utf-8`; exactly the other
nonempty values fail.  But the failure is **not** fatal to that file only:
the `AssertionError` escapes the per-file handler, so the whole run aborts
with exit code 2 and later queued files are never processed. -/
theorem C5_codec_resolution :
    (∀ cs, codec_name_from_ofx_headers none cs = .codec "ascii".toList) ∧
    (∀ cs, codec_name_from_ofx_headers (some []) cs = .codec "ascii".toList) ∧
    (∀ c, codec_name_from_ofx_headers (some "USASCII".toList) (some c)
      = .codec ("cp".toList ++ c)) ∧
    (codec_name_from_ofx_headers (some "USASCII".toList) none
      = .codec "cp1252".toList) ∧
    (∀ cs, codec_name_from_ofx_headers (some "UNICODE".toList) cs
      = .codec "utf-8".toList) ∧
    (∀ cs, codec_name_from_ofx_headers (some "UTF-8".toList) cs
      = .codec "utf-8".toList) ∧
    (∀ enc cs, codec_name_from_ofx_headers (some enc) cs
        = .unsupportedEncoding ↔
      enc.isEmpty = false ∧ enc ≠ "USASCII".toList ∧
        enc ≠ "UNICODE".toList ∧ enc ≠ "UTF-8".toList) ∧
    (processPaths c5FS [c5Bad, c5Good]).2 = 2 ∧
    lookupFS (processPaths c5FS [c5Bad, c5Good]).1
      (generate_out_path dotRepaired c5Good) = none := by
  refine ⟨fun cs => rfl, fun cs => rfl, fun c => rfl, rfl, fun cs => rfl,
    fun cs => rfl, ?_, by decide, by decide⟩
  intro enc cs
  unfold codec_name_from_ofx_headers
  dsimp only
  split_ifs with h1 h2 h3
  · simp [h1]
  · simp [h2]
  · rcases h3 with h3 | h3 <;> simp [h3]
  · rw [Bool.not_eq_true] at h1
    rw [not_or] at h3
    simp [h1, h2, h3.1, h3.2]

/-- A path with no file behind it. -/
def c9Missing : FPath := ⟨"missing".toList, extOfx⟩

/-- A valid file queued after the missing one. -/
def c9Good : FPath := ⟨"good".toList, extOfx⟩

def c9GoodData : OFXFileData := ⟨none, none, "<OFX>a</OFX>".toList⟩

def c9FS : FS := [(c9Good, c9GoodData)]

def c9Out : FPath := generate_out_path dotRepaired c9Good

/-- C9: a per-file failure does **not** let the run continue: the handler
executes `break`, abandoning every remaining path (then returns 0).  With
a missing first file, the valid second file is never processed — its
output is absent — although processing it alone succeeds and writes the
repaired output. -/
theorem C9_per_file_error_stops_run :
    processPaths c9FS [c9Missing, c9Good] = (c9FS, 0) ∧
    lookupFS c9FS c9Out = none ∧
    (processPaths c9FS [c9Good]).2 = 0 ∧
    lookupFS (processPaths c9FS [c9Good]).1 c9Out
      = some ⟨none, none, "<OFX>a</OFX>".toList⟩ := by
  refine ⟨by decide, by decide, by decide, by decide⟩

end Vanswap

namespace Vanswap

/-- Counterexample to the original C8 claim: the unbalanced payload
`"<STMTTRN>\n<NAME>a\n<MEMO>b\n"` does not raise any `MalformedRecord`
error — `repair` silently returns it byte-identical. -/
theorem C8_counterexample :
    repair "<STMTTRN>\n<NAME>a\n<MEMO>b\n".toList
      = "<STMTTRN>\n<NAME>a\n<MEMO>b\n".toList := by decide

/-- Counterexample to the original C7 claim: after the marker-less
document `"hello world"` fails, the output file **does** exist — created
empty before `write` raised. -/
theorem C7_counterexample :
    processPaths [(c7In, d7 "hello world".toList)] [c7In]
      = ([(c7In, d7 "hello world".toList), (c7Out, emptyFile)], 2) := by
  decide

/-- Counterexample to the original C5 claim: the `ENCODING` value
`"EBCDIC"` is not fatal to that file only — the whole run exits 2 and the
valid file queued after it is never processed. -/
theorem C5_counterexample :
    (processPaths c5FS [c5Bad, c5Good]).2 = 2 ∧
    lookupFS (processPaths c5FS [c5Bad, c5Good]).1
      (generate_out_path dotRepaired c5Good) = none := by decide

end Vanswap
